import Mathlib

/-!
# Verification of the MyMutualAME batch engine

A shallow embedding, in Lean 4, of the core logic of the `MyMutualAME`
repository (`bot.js`, `automation.js`): line intake and normalization
(`parseEntryLine`, `parseBulk`, `normalizeDobToMMDDYYYY`), the concurrency
limiter (`createLimiter`), the retry loop (`runOne`), the attempt executor
(`runAutomation`) and the outcome classifier (`classifyResult`), together
with theorems settling the specification's claims about them.

External JavaScript builtins are modelled as explicit parameters:
`String.prototype.normalize('NFKC')` is a parameter `nfkc` (Unicode NFKC is
the identity on ASCII strings, which concrete instantiations below use), and
the `new Date(s)` fallback parser is a parameter `fb` returning the parsed
calendar parts, `none` standing for an invalid date (`NaN`).
-/

set_option autoImplicit false

namespace MyMutualAME

/-! ## Characters and digits

`isJsWs` embeds the character class of the JavaScript regex `\s` (also the
set trimmed by `String.prototype.trim`); `isDig` embeds `\d`.
-/

/-- The character class of the JavaScript regex `\s` (whitespace). -/
def isJsWs (c : Char) : Bool :=
  c = ' ' || c = '\u0009' || c = '\u000a' || c = '\u000b' || c = '\u000c' ||
  c = '\u000d' || c = ' ' || c = ' ' || c = ' ' ||
  c = ' ' || c = ' ' || c = ' ' || c = ' ' ||
  c = ' ' || c = ' ' || c = ' ' || c = ' ' ||
  c = ' ' || c = ' ' || c = ' ' || c = ' ' ||
  c = ' ' || c = ' ' || c = '　' || c = '﻿'

/-- The character class of the JavaScript regex `\d`: the ASCII digits. -/
def isDig (c : Char) : Bool :=
  c = '0' || c = '1' || c = '2' || c = '3' || c = '4' ||
  c = '5' || c = '6' || c = '7' || c = '8' || c = '9'

/-- Numeric value of an ASCII digit character (as used by `parseInt`). -/
def digitVal (c : Char) : Nat := c.toNat - 48

/-- The decimal digit character for a value below ten (`*` otherwise). -/
def digitChar : Nat → Char
  | 0 => '0' | 1 => '1' | 2 => '2' | 3 => '3' | 4 => '4'
  | 5 => '5' | 6 => '6' | 7 => '7' | 8 => '8' | 9 => '9'
  | _ => '*'

/-- `parseInt(s, 10)` / unary `+` on a string of decimal digits. -/
def digitsToNat (l : List Char) : Nat :=
  l.foldl (fun a c => 10 * a + digitVal c) 0

/-- Fuel-driven decimal rendering of a natural number
(the recursion consumes one unit of fuel per digit; callers pass `n + 1`
units, which always suffices since `n / 10 < n`). -/
def natToDecAux : Nat → Nat → List Char
  | 0, _ => []
  | fuel + 1, n =>
    if n < 10 then [digitChar n]
    else natToDecAux fuel (n / 10) ++ [digitChar (n % 10)]

/-- `String(n)` for a natural number `n`: its decimal digits. -/
def natToDec (n : Nat) : List Char := natToDecAux (n + 1) n

/-- `s.padStart(2, '0')` on a character list. -/
def padStart2 : List Char → List Char
  | [] => ['0', '0']
  | [c] => ['0', c]
  | l => l

/-- `String(n).padStart(2, '0')`. -/
def pad2 (n : Nat) : List Char := padStart2 (natToDec n)

/-! ## JavaScript string primitives used by the intake code -/

/-- `s.trim()`: strip leading and trailing JavaScript whitespace. -/
def trimChars (l : List Char) : List Char :=
  ((l.dropWhile isJsWs).reverse.dropWhile isJsWs).reverse

/-- Helper for `collapseWs`: the boolean records whether the previous
character was whitespace (so the current run was already emitted). -/
def collapseWsAux : Bool → List Char → List Char
  | _, [] => []
  | prevWs, c :: rest =>
    if isJsWs c then
      if prevWs then collapseWsAux true rest
      else ' ' :: collapseWsAux true rest
    else c :: collapseWsAux false rest

/-- `s.replace(/\s+/g, ' ')`: collapse every whitespace run to one space. -/
def collapseWs (l : List Char) : List Char := collapseWsAux false l

/-- Is the character a field separator of the intake format
(the class `[|,]` of `parseEntryLine`'s split)? -/
def isSep (c : Char) : Bool := c = '|' || c = ','

/-- `s.split(/[|,]/)` on a character list. -/
def splitSep : List Char → List (List Char)
  | [] => [[]]
  | c :: rest =>
    if isSep c then [] :: splitSep rest
    else
      match splitSep rest with
      | [] => [[c]]
      | h :: t => (c :: h) :: t

/-- `s.split(/\r?\n/)`: split on `"\r\n"` or `"\n"` (a lone `'\r'` stays). -/
def splitLines : List Char → List (List Char)
  | [] => [[]]
  | '\u000d' :: '\u000a' :: rest => [] :: splitLines rest
  | '\u000a' :: rest => [] :: splitLines rest
  | c :: rest =>
    match splitLines rest with
    | [] => [[c]]
    | h :: t => (c :: h) :: t

/-! ## Date normalization (`normalizeDobToMMDDYYYY`, bot.js) -/

/-- The character class `[a-zA-Z' -]` kept by the last-name filter
(letters, apostrophe, space, hyphen). -/
def allowedNameChar (c : Char) : Bool :=
  ('a' ≤ c && c ≤ 'z') || ('A' ≤ c && c ≤ 'Z') ||
  c = '\'' || c = ' ' || c = '-'

/-- Match of the regex `^(\d{4})-(\d{2})-(\d{2})$`, returning the
`(year, month, day)` capture groups. -/
def matchYMD : List Char → Option (List Char × List Char × List Char)
  | [y1, y2, y3, y4, '-', m1, m2, '-', d1, d2] =>
    if [y1, y2, y3, y4, m1, m2, d1, d2].all isDig then
      some ([y1, y2, y3, y4], [m1, m2], [d1, d2])
    else none
  | _ => none

/-- Match of the regex `^(\d{1,2})[\/\-](\d{1,2})[\/\-](\d{2,4})$`,
returning the three capture groups.  Since a separator is never a digit, the
regex matches exactly when the maximal digit runs have the stated lengths. -/
def matchMDY (l : List Char) : Option (List Char × List Char × List Char) :=
  let a := l.takeWhile isDig
  let r1 := l.dropWhile isDig
  if a.length = 0 || 2 < a.length then none
  else
    match r1 with
    | [] => none
    | s1 :: r2 =>
      if s1 = '/' || s1 = '-' then
        let b := r2.takeWhile isDig
        let r3 := r2.dropWhile isDig
        if b.length = 0 || 2 < b.length then none
        else
          match r3 with
          | [] => none
          | s2 :: r4 =>
            if s2 = '/' || s2 = '-' then
              let c := r4.takeWhile isDig
              let r5 := r4.dropWhile isDig
              if 2 ≤ c.length && c.length ≤ 4 && r5.isEmpty then
                some (a, b, c)
              else none
            else none
      else none

/-- Resolution of a 2-digit year by the code's pivot:
`yy <= 30 ? 2000 + yy : 1900 + yy`. -/
def resolveYY (yy : Nat) : Nat := if yy ≤ 30 then 2000 + yy else 1900 + yy

/-- The calendar parts the JavaScript `Date` accessors expose for a
successfully parsed date: `getMonth()` (0-based), `getDate()`,
`getFullYear()`. -/
structure JsDate where
  month0 : Nat
  day : Nat
  year : Nat

/-- `normalizeDobToMMDDYYYY` (bot.js).  `fb` models the `new Date(s)`
fallback parser, `none` standing for an invalid date.  Note that only the
middle (`M/D/YY(YY)` / `MM-DD-YYYY`) branch performs the month/day/year
bounds check; the `YYYY-MM-DD` branch and the fallback return unchecked. -/
def normalizeDobToMMDDYYYY (fb : String → Option JsDate) (input : String) :
    Option String :=
  if input = "" then none
  else
    let s := trimChars input.data
    match matchYMD s with
    | some (y, m, d) => some (String.mk (m ++ '/' :: d ++ '/' :: y))
    | none =>
      match matchMDY s with
      | some (a, b, c) =>
        let mm := pad2 (digitsToNat a)
        let dd := pad2 (digitsToNat b)
        let yyyy := if c.length = 2 then natToDec (resolveYY (digitsToNat c))
                    else c
        if digitsToNat mm < 1 || 12 < digitsToNat mm ||
           digitsToNat dd < 1 || 31 < digitsToNat dd ||
           digitsToNat yyyy < 1900 || 2100 < digitsToNat yyyy then none
        else some (String.mk (mm ++ '/' :: dd ++ '/' :: yyyy))
      | none =>
        match fb (String.mk s) with
        | some d =>
          some (String.mk
            (pad2 (d.month0 + 1) ++ '/' :: pad2 d.day ++ '/' :: natToDec d.year))
        | none => none

/-! ## Record parsing (`parseEntryLine`, `parseBulk`, bot.js) -/

/-- Match of the zip regex `^\d{5}(?:-\d{4})?$`. -/
def zipOk : List Char → Bool
  | [a, b, c, d, e] => [a, b, c, d, e].all isDig
  | [a, b, c, d, e, '-', f, g, h, i] =>
    [a, b, c, d, e].all isDig && [f, g, h, i].all isDig
  | _ => false

/-- Match of the last-4 regex `^\d{4}$`. -/
def last4Ok : List Char → Bool
  | [a, b, c, d] => [a, b, c, d].all isDig
  | _ => false

/-- Result of `parseEntryLine`: either the `ok:true` record (its four
canonical fields and the normalized line `raw:s`), or the `ok:false` object
carrying the error kind and the optional `value` / `got` diagnostics. -/
inductive ParseResult where
  | ok (lastName dob zip last4 raw : String)
  | err (error : String) (raw : String) (value : Option String)
      (got : Option Nat)
  deriving DecidableEq, Repr

/-- Map `' '` to a plain space (`replace(/ /g, ' ')`). -/
def nbspToSpace (c : Char) : Char := if c = ' ' then ' ' else c

/-- Map the CJK commas to `','` (`replace(/[，、]/g, ',')`). -/
def cjkComma (c : Char) : Char :=
  if c = '，' || c = '、' then ',' else c

/-- `parseEntryLine` (bot.js).  `nfkc` models the builtin
`String.prototype.normalize('NFKC')` (the identity on ASCII strings). -/
def parseEntryLine (nfkc : String → String) (fb : String → Option JsDate)
    (raw : String) : ParseResult :=
  if raw = "" then .err "empty_line" raw none none
  else
    let s := trimChars (collapseWs
      ((((nfkc raw).data.map nbspToSpace).map cjkComma)))
    let parts := (splitSep s).map trimChars
    if h4 : parts.length = 4 then
      let lastNameRaw := parts[0]
      let dobRaw := parts[1]
      let zipRaw := parts[2]
      let last4Raw := parts[3]
      let lastName := trimChars (lastNameRaw.filter allowedNameChar)
      if lastName = [] then
        .err "invalid_lastname" raw (some (String.mk lastNameRaw)) none
      else
        match normalizeDobToMMDDYYYY fb (String.mk dobRaw) with
        | none => .err "invalid_dob" raw (some (String.mk dobRaw)) none
        | some dob =>
          if zipOk zipRaw then
            if last4Ok last4Raw then
              .ok (String.mk lastName) dob (String.mk zipRaw)
                (String.mk last4Raw) (String.mk s)
            else .err "invalid_last4" raw (some (String.mk last4Raw)) none
          else .err "invalid_zip" raw (some (String.mk zipRaw)) none
    else .err "bad_field_count" raw none (some parts.length)

/-- One element of `parseBulk`'s output: the 1-based `index`, the `input`
line, and the spread of the `parseEntryLine` result. -/
structure Outcome where
  index : Nat
  input : String
  result : ParseResult
  deriving DecidableEq, Repr

/-- The error kind carried by an outcome (`none` on a valid record). -/
def Outcome.errOf (o : Outcome) : Option String :=
  match o.result with
  | .ok _ _ _ _ _ => none
  | .err e _ _ _ => some e

/-- Is the outcome a valid record (`r.ok`)? -/
def Outcome.isOk (o : Outcome) : Bool :=
  match o.result with
  | .ok _ _ _ _ _ => true
  | .err _ _ _ _ => false

/-- `parseBulk` (bot.js): split into lines, trim, drop empty and
`#`-comment lines, and parse each remaining line with its 1-based index. -/
def parseBulk (nfkc : String → String) (fb : String → Option JsDate)
    (text : String) : List Outcome :=
  let lines := ((splitLines text.data).map trimChars).filter
    (fun s => !s.isEmpty && s.head? ≠ some '#')
  lines.enum.map (fun p =>
    { index := p.1 + 1
      input := String.mk p.2
      result := parseEntryLine nfkc fb (String.mk p.2) })

/-- The identity, standing in for `normalize('NFKC')` on ASCII input
(Unicode NFKC normalization fixes every ASCII string). -/
def nfkcId : String → String := fun s => s

/-- A `new Date(s)` model that parses nothing (every concrete input below
is decided by the literal-format branches, never the fallback). -/
def fbNone : String → Option JsDate := fun _ => none

/-! ## The concurrency limiter (`createLimiter`, bot.js)

The limiter closure's mutable state is `active` and `queue`; tasks are
identified by numbers.  `started` is a ghost log of the admission order (the
order in which `fn()` calls begin), used to state the FIFO property.  The
two events that mutate the state are a task submission (`queue.push`
followed by `next()`) and a task completion (`active--` followed by
`next()`; the completion handler only ever runs for a previously admitted
task, hence the `active = 0` guard leaves the state unchanged). -/

/-- State of one `createLimiter` instance. -/
structure LimState where
  active : Nat
  queue : List Nat
  started : List Nat
  deriving DecidableEq, Repr

/-- The events that drive a limiter instance. -/
inductive LimEvent where
  | submit (id : Nat)
  | finish
  deriving DecidableEq, Repr

/-- The `next` closure: admit the queue head unless the cap is reached or
the queue is empty. -/
def limiterNext (limit : Nat) (s : LimState) : LimState :=
  if limit ≤ s.active then s
  else
    match s.queue with
    | [] => s
    | t :: rest =>
      { active := s.active + 1, queue := rest, started := s.started ++ [t] }

/-- One event: `submit` is `queue.push({fn,...}); next()`; `finish` is the
`.then`/`.catch` continuation `active--; next()` of an admitted task. -/
def limiterStep (limit : Nat) (s : LimState) : LimEvent → LimState
  | .submit id => limiterNext limit { s with queue := s.queue ++ [id] }
  | .finish =>
    if s.active = 0 then s
    else limiterNext limit { s with active := s.active - 1 }

/-- The state of a fresh limiter: `active = 0`, empty queue. -/
def limiterInit : LimState := ⟨0, [], []⟩

/-- The limiter state after a sequence of events. -/
def limiterRun (limit : Nat) (es : List LimEvent) : LimState :=
  es.foldl (limiterStep limit) limiterInit

/-! ## The retry loop (`runOne`, bot.js message handler) -/

/-- Outcome of one pass of the `Promise.race` between `runAutomation` and
the timeout: either a resolved `{status, screenshotPath}` or a rejection
(automation rejection, or the `new Error('timeout')` of the race). -/
inductive PassOutcome where
  | success (status : String) (screenshot : String)
  | failure (err : String)
  deriving DecidableEq, Repr

/-- The object `runOne` returns, with two ghost counters: `passes` is the
number of automation passes executed and `delays` the number of
`delay(RETRY_DELAY_MS)` waits performed before returning. -/
structure AttemptResult where
  index : Nat
  ok : Bool
  status : Option String
  screenshot : Option String
  error : Option String
  passes : Nat
  delays : Nat
  deriving DecidableEq, Repr

/-- The `while (true)` loop of `runOne`, with `R` for `RETRY_ERRORS` and
`passes p` the outcome of the `p`-th pass.  The fuel argument only bounds
the recursion: a failing pass `p` with `p > 1 + R` returns, so every call
with `fuel + pass ≥ 2 + R` returns before the fuel runs out, and callers
supply `fuel = 2 + R` from `pass = 0`. -/
def runOneGo (R : Nat) (passes : Nat → PassOutcome) (index : Nat) :
    Nat → Nat → AttemptResult
  | 0, pass =>
    { index, ok := false, status := none, screenshot := none,
      error := none, passes := pass, delays := pass }
  | fuel + 1, pass =>
    let p := pass + 1
    match passes p with
    | .success st shot =>
      { index, ok := true, status := some st, screenshot := some shot,
        error := none, passes := p, delays := p - 1 }
    | .failure e =>
      if 1 + R < p then
        { index, ok := false, status := none, screenshot := none,
          error := some e, passes := p, delays := p - 1 }
      else runOneGo R passes index fuel p

/-- `runOne` (bot.js): run the entry's passes with retry bookkeeping. -/
def runOne (R : Nat) (passes : Nat → PassOutcome) (index : Nat) :
    AttemptResult :=
  runOneGo R passes index (2 + R) 0

/-! ## The outcome classifier (`classifyResult`, automation.js)

A page scan is abstracted by which of the curated regex patterns currently
match visible text (`textVisible`) and which match a visible alert
container (`alertVisible`); the patterns are identified by their source
text. -/

/-- A snapshot of one classification scan of the page. -/
structure PageScan where
  textVisible : String → Bool
  alertVisible : String → Bool

/-- Source of the regex `/doesn[’']?t match/i` (spelled out character by
character). -/
def doesntMatchSource : String :=
  String.mk ['d', 'o', 'e', 's', 'n', '[', '’', '\'', ']', '?', 't',
    ' ', 'm', 'a', 't', 'c', 'h']

/-- The curated mismatch vocabulary (`incorrectMatchers`). -/
def incorrectMatchers : List String :=
  ["We are unable to confirm your identity", "could not verify",
   doesntMatchSource, "not match"]

/-- The curated success vocabulary (`validMatchers`). -/
def validMatchers : List String :=
  ["verified", "success", "we found your account", "security code",
   "verification code"]

/-- `classifyResult` (automation.js): the mismatch vocabulary is scanned
first (plain text locator, then alert containers), then the success
vocabulary, else `unknown`. -/
def classifyResult (p : PageScan) : String :=
  if incorrectMatchers.any (fun re => p.textVisible re || p.alertVisible re)
  then "incorrect"
  else if validMatchers.any (fun re => p.textVisible re) then "valid"
  else "unknown"

/-! ## The attempt executor (`runAutomation`, automation.js)

Each effectful step is abstracted by its outcome, `Except.error` standing
for a thrown error / rejected promise: `acquire` covers everything before
the `try` block (`getBrowser()`, `browser.newContext`, `context.newPage`
and the screenshot-path setup), `goto` the `TARGET_URL` validation and
`page.goto`, the four `ok*` booleans the `tryFill` results, `clicked` the
`tryClickContinue` result, `classified` the status produced by the
classification poll loop, and `capture` the `screenshotPanel` call.  The
function value `Except.error e` models a rejection of the returned promise
propagating to the caller. -/

/-- Outcomes of the effectful steps of one `runAutomation` call. -/
structure AutoEnv where
  acquire : Except String Unit
  goto : Except String Unit
  okLast : Bool
  okDOB : Bool
  okZIP : Bool
  okL4 : Bool
  clicked : Bool
  classified : String
  capture : Except String Unit

/-- The object `runAutomation` resolves with (the screenshot path is not
modelled). -/
structure AutoResult where
  status : String
  error : Option String
  deriving DecidableEq, Repr

/-- The fields-not-found diagnostic built by `runAutomation`. -/
def fieldsMsg (l d z s4 : Bool) : String :=
  "Could not locate all fields (last:" ++ toString l ++ " dob:" ++
    toString d ++ " zip:" ++ toString z ++ " last4:" ++ toString s4 ++ ")"

/-- `runAutomation` (automation.js).  Session acquisition happens before
the `try` block, so its errors propagate (`Except.error`); every error
thrown inside the `try` block is caught and returned as a normal result
with `status = "error"` and the diagnostic message. -/
def runAutomation (env : AutoEnv) : Except String AutoResult :=
  match env.acquire with
  | .error e => .error e
  | .ok _ =>
    match env.goto with
    | .error e => .ok { status := "error", error := some e }
    | .ok _ =>
      if !(env.okLast && env.okDOB && env.okZIP && env.okL4) then
        .ok { status := "error",
              error := some (fieldsMsg env.okLast env.okDOB env.okZIP env.okL4) }
      else if !env.clicked then
        .ok { status := "error", error := some "Could not find the Continue button" }
      else
        match env.capture with
        | .error e => .ok { status := "error", error := some e }
        | .ok _ => .ok { status := env.classified, error := none }

/-! ## Batch aggregation (message handler, bot.js)

Each valid outcome is dispatched exactly once through the limiter; the
per-entry pass outcomes are abstracted by `passesFor` (indexed by entry
index), completion order is an arbitrary interleaving (a permutation of the
valid list), and the collected results are finally sorted by `index`. -/

/-- The valid records of a parsed batch (`parsed.filter(r => r.ok)`). -/
def validOutcomes (os : List Outcome) : List Outcome :=
  os.filter Outcome.isOk

/-- The sorted results list the message handler persists: one `runOne`
result per dispatched entry, sorted by `index` ascending. -/
def batchResults (R : Nat) (passesFor : Nat → Nat → PassOutcome)
    (order : List Outcome) : List AttemptResult :=
  (order.map (fun e => runOne R (passesFor e.index) e.index)).insertionSort
    (fun a b => a.index ≤ b.index)

/-! ## Predicates used to state the claims -/

/-- Does a canonical dob string have the shape `MM/DD/YYYY` with month
1-12, day 1-31 and year 1900-2100 (the bounds of §3 of the spec)? -/
def dobBounded (s : String) : Bool :=
  match s.data with
  | [m1, m2, '/', d1, d2, '/', y1, y2, y3, y4] =>
    [m1, m2, d1, d2, y1, y2, y3, y4].all isDig &&
    1 ≤ digitsToNat [m1, m2] && digitsToNat [m1, m2] ≤ 12 &&
    1 ≤ digitsToNat [d1, d2] && digitsToNat [d1, d2] ≤ 31 &&
    1900 ≤ digitsToNat [y1, y2, y3, y4] && digitsToNat [y1, y2, y3, y4] ≤ 2100
  | _ => false

/-- No two adjacent characters of the list are both plain spaces. -/
def noTwoSpaces : List Char → Bool
  | [] => true
  | [_] => true
  | a :: b :: rest => !(a = ' ' && b = ' ') && noTwoSpaces (b :: rest)

/-- A character that the intake pipeline's per-line normalization steps
leave alone: not a field separator, not one of the CJK commas, and not a
whitespace character other than the plain space. -/
def goodFieldChar (c : Char) : Bool :=
  !isSep c && !(c = '，') && !(c = '、') && (!isJsWs c || c = ' ')

instance : IsTotal AttemptResult (fun a b => a.index ≤ b.index) :=
  ⟨fun a b => Nat.le_total a.index b.index⟩

instance : IsTrans AttemptResult (fun a b => a.index ≤ b.index) :=
  ⟨fun _ _ _ h1 h2 => Nat.le_trans h1 h2⟩

/-! ## Digit and decimal-rendering lemmas -/

theorem isDig_cases {c : Char} (h : isDig c = true) :
    c = '0' ∨ c = '1' ∨ c = '2' ∨ c = '3' ∨ c = '4' ∨
    c = '5' ∨ c = '6' ∨ c = '7' ∨ c = '8' ∨ c = '9' := by
  simp only [isDig, Bool.or_eq_true, decide_eq_true_eq] at h
  tauto

theorem digitVal_lt_ten {c : Char} (h : isDig c = true) : digitVal c < 10 := by
  rcases isDig_cases h with rfl | rfl | rfl | rfl | rfl | rfl | rfl | rfl | rfl | rfl <;>
    decide

theorem digitChar_digitVal {c : Char} (h : isDig c = true) :
    digitChar (digitVal c) = c := by
  rcases isDig_cases h with rfl | rfl | rfl | rfl | rfl | rfl | rfl | rfl | rfl | rfl <;>
    decide

theorem digitVal_digitChar {n : Nat} (h : n < 10) : digitVal (digitChar n) = n := by
  interval_cases n <;> decide

theorem isDig_digitChar {n : Nat} (h : n < 10) : isDig (digitChar n) = true := by
  interval_cases n <;> decide

theorem digitsToNat_pair (c1 c2 : Char) :
    digitsToNat [c1, c2] = 10 * digitVal c1 + digitVal c2 := by
  show 10 * (10 * 0 + digitVal c1) + digitVal c2 = _
  omega

theorem natToDecAux_small {f n : Nat} (hf : 0 < f) (hn : n < 10) :
    natToDecAux f n = [digitChar n] := by
  cases f with
  | zero => omega
  | succ f => simp [natToDecAux, hn]

theorem natToDecAux_step {f n : Nat} (hf : 1 ≤ f) (hn : 10 ≤ n) :
    natToDecAux f n = natToDecAux (f - 1) (n / 10) ++ [digitChar (n % 10)] := by
  cases f with
  | zero => omega
  | succ f => simp [natToDecAux, show ¬ n < 10 by omega]

theorem digitsToNat_append_one (l : List Char) (c : Char) :
    digitsToNat (l ++ [c]) = 10 * digitsToNat l + digitVal c := by
  unfold digitsToNat
  rw [List.foldl_append]
  rfl

theorem digitsToNat_natToDecAux : ∀ {f n : Nat}, n < f →
    digitsToNat (natToDecAux f n) = n := by
  intro f
  induction f with
  | zero => intro n h; omega
  | succ f ih =>
    intro n hn
    by_cases h10 : n < 10
    · rw [natToDecAux_small (by omega) h10]
      show 10 * 0 + digitVal (digitChar n) = n
      rw [digitVal_digitChar h10]
      omega
    · rw [natToDecAux_step (by omega) (by omega), digitsToNat_append_one]
      have hdiv : n / 10 < f := by omega
      simp only [Nat.add_sub_cancel]
      rw [ih hdiv, digitVal_digitChar (by omega)]
      omega

theorem natToDecAux_all_digits : ∀ {f n : Nat}, ∀ c ∈ natToDecAux f n,
    isDig c = true := by
  intro f
  induction f with
  | zero => intro n c hc; simp [natToDecAux] at hc
  | succ f ih =>
    intro n c hc
    by_cases h10 : n < 10
    · rw [natToDecAux_small (by omega) h10] at hc
      simp at hc
      rw [hc]
      exact isDig_digitChar h10
    · rw [natToDecAux_step (by omega) (by omega)] at hc
      simp at hc
      rcases hc with hc | hc
      · exact ih c hc
      · rw [hc]
        exact isDig_digitChar (by omega)

theorem digitsToNat_natToDec (n : Nat) : digitsToNat (natToDec n) = n :=
  digitsToNat_natToDecAux (by omega)

theorem digitsToNat_lt (l : List Char) (h : ∀ c ∈ l, isDig c = true) :
    digitsToNat l < 10 ^ l.length := by
  suffices aux : ∀ (m : List Char) (a : Nat), (∀ c ∈ m, isDig c = true) →
      m.foldl (fun a c => 10 * a + digitVal c) a < (a + 1) * 10 ^ m.length by
    simpa [digitsToNat] using aux l 0 h
  intro m
  induction m with
  | nil => intro a _; simp
  | cons c m ih =>
    intro a hall
    have hc : digitVal c < 10 := digitVal_lt_ten (hall c (by simp))
    have h2 := ih (10 * a + digitVal c) (fun x hx => hall x (by simp [hx]))
    refine lt_of_lt_of_le h2 ?_
    have hmul : 10 * a + digitVal c + 1 ≤ (a + 1) * 10 := by omega
    calc (10 * a + digitVal c + 1) * 10 ^ m.length
        ≤ ((a + 1) * 10) * 10 ^ m.length := Nat.mul_le_mul_right _ hmul
      _ = (a + 1) * 10 ^ (c :: m).length := by
          simp [List.length_cons, pow_succ]
          ring

theorem pad2_small {n : Nat} (h : n < 10) : pad2 n = ['0', digitChar n] := by
  unfold pad2 natToDec
  rw [natToDecAux_small (by omega) h]
  rfl

theorem pad2_two_digit {n : Nat} (h10 : 10 ≤ n) (h100 : n < 100) :
    pad2 n = [digitChar (n / 10), digitChar (n % 10)] := by
  unfold pad2 natToDec
  rw [natToDecAux_step (by omega) h10, natToDecAux_small (by omega) (by omega)]
  rfl

theorem pad2_spec {n : Nat} (h : n < 100) :
    digitsToNat (pad2 n) = n ∧ (pad2 n).length = 2 ∧
    ∀ c ∈ pad2 n, isDig c = true := by
  by_cases h10 : n < 10
  · rw [pad2_small h10]
    refine ⟨?_, rfl, ?_⟩
    · rw [digitsToNat_pair, digitVal_digitChar h10]
      have h0 : digitVal '0' = 0 := rfl
      rw [h0]
      omega
    · intro c hc
      simp at hc
      rcases hc with rfl | rfl
      · decide
      · exact isDig_digitChar h10
  · rw [pad2_two_digit (by omega) h]
    refine ⟨?_, rfl, ?_⟩
    · rw [digitsToNat_pair, digitVal_digitChar (by omega),
        digitVal_digitChar (by omega)]
      omega
    · intro c hc
      simp at hc
      rcases hc with rfl | rfl
      · exact isDig_digitChar (by omega)
      · exact isDig_digitChar (by omega)

theorem pad2_digits_pair {c1 c2 : Char} (h1 : isDig c1 = true)
    (h2 : isDig c2 = true) : pad2 (digitsToNat [c1, c2]) = [c1, c2] := by
  have hv1 := digitVal_lt_ten h1
  have hv2 := digitVal_lt_ten h2
  rw [digitsToNat_pair]
  by_cases hz : digitVal c1 = 0
  · have hc1 : c1 = '0' := by
      have e := digitChar_digitVal h1
      rw [hz] at e
      exact e.symm
    rw [hz, pad2_small (by omega)]
    have : (10 * 0 + digitVal c2) = digitVal c2 := by omega
    rw [this, digitChar_digitVal h2, hc1]
  · rw [pad2_two_digit (by omega) (by omega)]
    have hdiv : (10 * digitVal c1 + digitVal c2) / 10 = digitVal c1 := by omega
    have hmod : (10 * digitVal c1 + digitVal c2) % 10 = digitVal c2 := by omega
    rw [hdiv, hmod, digitChar_digitVal h1, digitChar_digitVal h2]

theorem natToDec_year {n : Nat} (h1 : 1000 ≤ n) (h2 : n ≤ 9999) :
    natToDec n = [digitChar (n / 1000), digitChar (n / 100 % 10),
      digitChar (n / 10 % 10), digitChar (n % 10)] := by
  unfold natToDec
  rw [natToDecAux_step (by omega) (by omega)]
  rw [natToDecAux_step (by omega) (by omega)]
  rw [natToDecAux_step (by omega) (by omega)]
  rw [natToDecAux_small (by omega) (by omega)]
  have e2 : n / 10 / 10 = n / 100 := by omega
  rw [e2]
  have e3 : n / 100 / 10 = n / 1000 := by omega
  rw [e3]
  simp

theorem exists_four_of_length {α : Type} {l : List α} (h : l.length = 4) :
    ∃ a b c d, l = [a, b, c, d] := by
  rcases l with _ | ⟨a, _ | ⟨b, _ | ⟨c, _ | ⟨d, _ | ⟨e, t⟩⟩⟩⟩⟩
  · simp at h
  · simp at h
  · simp at h
  · simp at h
  · exact ⟨a, b, c, d, rfl⟩
  · simp at h

theorem matchMDY_inv {l a b c : List Char}
    (h : matchMDY l = some (a, b, c)) :
    (∀ x ∈ a, isDig x = true) ∧ 1 ≤ a.length ∧ a.length ≤ 2 ∧
    (∀ x ∈ b, isDig x = true) ∧ 1 ≤ b.length ∧ b.length ≤ 2 ∧
    (∀ x ∈ c, isDig x = true) ∧ 2 ≤ c.length ∧ c.length ≤ 4 := by
  simp only [matchMDY] at h
  split at h
  · exact absurd h (by simp)
  · rename_i hlen1
    split at h
    · exact absurd h (by simp)
    · rename_i s1 r2 heq1
      split at h
      · split at h
        · exact absurd h (by simp)
        · rename_i hlen2
          split at h
          · exact absurd h (by simp)
          · rename_i s2 r4 heq2
            split at h
            · split at h
              · rename_i hsep2 hlast
                rw [Option.some.injEq, Prod.mk.injEq, Prod.mk.injEq] at h
                obtain ⟨ha, hb, hc⟩ := h
                subst ha
                subst hb
                subst hc
                simp only [Bool.or_eq_true, decide_eq_true_eq, not_or] at hlen1 hlen2
                simp only [Bool.and_eq_true, decide_eq_true_eq] at hlast
                refine ⟨fun x hx => List.mem_takeWhile_imp hx, by omega, by omega,
                  fun x hx => List.mem_takeWhile_imp hx, by omega, by omega,
                  fun x hx => List.mem_takeWhile_imp hx, ?_, ?_⟩
                · exact hlast.1.1
                · exact hlast.1.2
              · exact absurd h (by simp)
            · exact absurd h (by simp)
      · exact absurd h (by simp)

/-- **C6** (amended): the month/day/year bounds are enforced exactly by the
numeric `M/D/YY(YY)` / `MM-DD-YYYY` branch of the date normalizer: whenever
the trimmed dob input matches that branch's pattern (and not the
`YYYY-MM-DD` pattern), an accepted canonical dob has the 10-character
`MM/DD/YYYY` shape with month 1-12, day 1-31 and year 1900-2100; inputs in
`YYYY-MM-DD` form and fallback-parsed inputs are canonicalized without any
bounds validation. -/
theorem dobBounded_build {m1 m2 d1 d2 y1 y2 y3 y4 : Char}
    (hdig : ∀ x ∈ [m1, m2, d1, d2, y1, y2, y3, y4], isDig x = true)
    (hm1 : 1 ≤ digitsToNat [m1, m2]) (hm2 : digitsToNat [m1, m2] ≤ 12)
    (hd1 : 1 ≤ digitsToNat [d1, d2]) (hd2 : digitsToNat [d1, d2] ≤ 31)
    (hy1 : 1900 ≤ digitsToNat [y1, y2, y3, y4])
    (hy2 : digitsToNat [y1, y2, y3, y4] ≤ 2100) :
    dobBounded (String.mk ([m1, m2] ++ '/' :: [d1, d2] ++ '/' ::
      [y1, y2, y3, y4])) = true := by
  show dobBounded (String.mk [m1, m2, '/', d1, d2, '/', y1, y2, y3, y4]) = true
  unfold dobBounded
  simp only [List.all_eq_true, Bool.and_eq_true, decide_eq_true_eq]
  exact ⟨⟨⟨⟨⟨⟨hdig, hm1⟩, hm2⟩, hd1⟩, hd2⟩, hy1⟩, hy2⟩

/-- **C6** (amended): the month/day/year bounds are enforced exactly by the
numeric `M/D/YY(YY)` / `MM-DD-YYYY` branch of the date normalizer: whenever
the trimmed dob input matches that branch's pattern (and not the
`YYYY-MM-DD` pattern), an accepted canonical dob has the 10-character
`MM/DD/YYYY` shape with month 1-12, day 1-31 and year 1900-2100; inputs in
`YYYY-MM-DD` form and fallback-parsed inputs are canonicalized without any
bounds validation. -/
theorem dob_bounds_checked_in_numeric_branch (fb : String → Option JsDate)
    (s out : String) (g : List Char × List Char × List Char)
    (hymd : matchYMD (trimChars s.data) = none)
    (hmdy : matchMDY (trimChars s.data) = some g)
    (hout : normalizeDobToMMDDYYYY fb s = some out) :
    dobBounded out = true := by
  obtain ⟨a, b, c⟩ := g
  obtain ⟨hadig, ha1, ha2, hbdig, hb1, hb2, hcdig, hc2, hc4⟩ := matchMDY_inv hmdy
  by_cases hne : s = ""
  · rw [hne] at hout
    simp [normalizeDobToMMDDYYYY] at hout
  · simp only [normalizeDobToMMDDYYYY, if_neg hne, hymd, hmdy] at hout
    have hva : digitsToNat a < 100 := by
      have hlt := digitsToNat_lt a hadig
      have hpow : (10 : Nat) ^ a.length ≤ 10 ^ 2 :=
        Nat.pow_le_pow_right (by omega) ha2
      have := lt_of_lt_of_le hlt hpow
      simpa using this
    have hvb : digitsToNat b < 100 := by
      have hlt := digitsToNat_lt b hbdig
      have hpow : (10 : Nat) ^ b.length ≤ 10 ^ 2 :=
        Nat.pow_le_pow_right (by omega) hb2
      have := lt_of_lt_of_le hlt hpow
      simpa using this
    obtain ⟨hmmval, hmmlen, hmmdig⟩ := pad2_spec hva
    obtain ⟨hddval, hddlen, hdddig⟩ := pad2_spec hvb
    obtain ⟨m1, m2, hmm⟩ := List.length_eq_two.mp hmmlen
    obtain ⟨d1, d2, hdd⟩ := List.length_eq_two.mp hddlen
    by_cases hcl : c.length = 2
    · -- 2-digit year: resolved through the pivot, always inside the bounds
      simp only [if_pos hcl] at hout
      have hvc : digitsToNat c < 100 := by
        have hlt := digitsToNat_lt c hcdig
        rw [hcl] at hlt
        simpa using hlt
      have hry : 1900 ≤ resolveYY (digitsToNat c) ∧
          resolveYY (digitsToNat c) ≤ 2100 := by
        unfold resolveYY
        split <;> omega
      have hyform := @natToDec_year (resolveYY (digitsToNat c))
        (by omega) (by omega)
      rw [hyform] at hout
      split at hout
      · exact absurd hout (by simp)
      · rename_i hcond
        rw [Option.some.injEq] at hout
        subst hout
        simp only [Bool.or_eq_true, decide_eq_true_eq, not_or, Nat.not_lt] at hcond
        obtain ⟨⟨⟨⟨⟨hg1, hg2⟩, hg3⟩, hg4⟩, hg5⟩, hg6⟩ := hcond
        rw [hmm] at hmmval hmmdig hg1 hg2
        rw [hdd] at hddval hdddig hg3 hg4
        rw [← hyform] at hg5 hg6
        rw [digitsToNat_natToDec] at hg5 hg6
        rw [hmm, hdd]
        refine dobBounded_build ?_ (by omega) (by omega) (by omega) (by omega)
          ?_ ?_
        · intro x hx
          simp only [List.mem_cons, List.not_mem_nil, or_false] at hx
          rcases hx with rfl | rfl | rfl | rfl | rfl | rfl | rfl | rfl
          · exact hmmdig x (by simp)
          · exact hmmdig x (by simp)
          · exact hdddig x (by simp)
          · exact hdddig x (by simp)
          · exact isDig_digitChar (by omega)
          · exact isDig_digitChar (by omega)
          · exact isDig_digitChar (by omega)
          · exact isDig_digitChar (by omega)
        · rw [← hyform, digitsToNat_natToDec]
          omega
        · rw [← hyform, digitsToNat_natToDec]
          omega
    · -- 3- or 4-digit year: the guard forces value ≥ 1900, hence 4 digits
      simp only [if_neg hcl] at hout
      split at hout
      · exact absurd hout (by simp)
      · rename_i hcond
        rw [Option.some.injEq] at hout
        subst hout
        simp only [Bool.or_eq_true, decide_eq_true_eq, not_or, Nat.not_lt] at hcond
        obtain ⟨⟨⟨⟨⟨hg1, hg2⟩, hg3⟩, hg4⟩, hg5⟩, hg6⟩ := hcond
        have hclen : c.length = 4 := by
          rcases Nat.lt_or_ge c.length 4 with h4 | h4
          · have hlt := digitsToNat_lt c hcdig
            have hle3 : c.length ≤ 3 := by omega
            have hpow : (10 : Nat) ^ c.length ≤ 10 ^ 3 :=
              Nat.pow_le_pow_right (by omega) hle3
            have : digitsToNat c < 1000 := by
              have := lt_of_lt_of_le hlt hpow
              simpa using this
            omega
          · omega
        obtain ⟨y1, y2, y3, y4, hcform⟩ := exists_four_of_length hclen
        rw [hmm] at hmmval hmmdig hg1 hg2
        rw [hdd] at hddval hdddig hg3 hg4
        rw [hcform] at hg5 hg6 hcdig
        rw [hmm, hdd, hcform]
        refine dobBounded_build ?_ (by omega) (by omega) (by omega) (by omega)
          (by omega) (by omega)
        intro x hx
        simp only [List.mem_cons, List.not_mem_nil, or_false] at hx
        rcases hx with rfl | rfl | rfl | rfl | rfl | rfl | rfl | rfl
        · exact hmmdig x (by simp)
        · exact hmmdig x (by simp)
        · exact hdddig x (by simp)
        · exact hdddig x (by simp)
        · exact hcdig x (by simp)
        · exact hcdig x (by simp)
        · exact hcdig x (by simp)
        · exact hcdig x (by simp)

theorem dob_bounds_checked_in_numeric_branch_witness :
    matchYMD (trimChars ("2/23/61" : String).data) = none ∧
    matchMDY (trimChars ("2/23/61" : String).data) =
      some (['2'], ['2', '3'], ['6', '1']) ∧
    normalizeDobToMMDDYYYY fbNone "2/23/61" = some "02/23/1961" ∧
    dobBounded "02/23/1961" = true :=
  ⟨rfl, rfl, rfl,
   dob_bounds_checked_in_numeric_branch fbNone "2/23/61" "02/23/1961"
     (['2'], ['2', '3'], ['6', '1']) rfl rfl rfl⟩

/-! ## No reachable `empty_line` rejection (C9) -/

theorem parseEntryLine_no_empty_line (nfkc : String → String)
    (fb : String → Option JsDate) (raw : String) (hne : ¬ raw = "")
    (r : String) (v : Option String) (g : Option Nat) :
    parseEntryLine nfkc fb raw ≠ .err "empty_line" r v g := by
  intro h
  simp only [parseEntryLine, if_neg hne] at h
  split at h
  · split at h
    · injection h with h1
      exact absurd h1 (by decide)
    · split at h
      · injection h with h1
        exact absurd h1 (by decide)
      · split at h
        · split at h
          · exact ParseResult.noConfusion h
          · injection h with h1
            exact absurd h1 (by decide)
        · injection h with h1
          exact absurd h1 (by decide)
  · injection h with h1
    exact absurd h1 (by decide)

/-- **C9**: the `empty_line` rejection kind is unreachable through batch
parsing: `parseBulk` trims every line and discards empty (and `#`-comment)
lines before calling `parseEntryLine`, so no outcome it returns carries the
error `empty_line`. -/
theorem parseBulk_no_empty_line (nfkc : String → String)
    (fb : String → Option JsDate) (text : String) (o : Outcome)
    (ho : o ∈ parseBulk nfkc fb text) : o.errOf ≠ some "empty_line" := by
  simp only [parseBulk, List.mem_map] at ho
  obtain ⟨p, hp, rfl⟩ := ho
  have hmem : p.2 ∈ ((splitLines text.data).map trimChars).filter
      (fun s => !s.isEmpty && s.head? ≠ some '#') :=
    List.snd_mem_of_mem_enum hp
  have hne : ¬ (String.mk p.2 = "") := by
    have hcond := (List.mem_filter.mp hmem).2
    intro hmk
    have hnil : p.2 = [] := congrArg String.data hmk
    rw [hnil] at hcond
    simp at hcond
  intro hcontra
  simp only [Outcome.errOf] at hcontra
  split at hcontra
  · exact Option.noConfusion hcontra
  · rename_i e r2 v2 g2 heq
    rw [Option.some.injEq] at hcontra
    subst hcontra
    exact parseEntryLine_no_empty_line nfkc fb (String.mk p.2) hne r2 v2 g2 heq

theorem parseBulk_no_empty_line_witness :
    (⟨1, "x", .err "bad_field_count" "x" none (some 1)⟩ : Outcome) ∈
      parseBulk nfkcId fbNone "x" ∧
    (⟨1, "x", ParseResult.err "bad_field_count" "x" none (some 1)⟩ :
      Outcome).errOf ≠ some "empty_line" :=
  ⟨by decide, parseBulk_no_empty_line nfkcId fbNone "x" _ (by decide)⟩

/-! ## Transparency of the per-line normalization pipeline

These lemmas identify when the character-level steps of `parseEntryLine`
(`nbspToSpace`, `cjkComma`, whitespace collapse, trim, separator split)
leave a list unchanged, which drives the idempotence and last-name claims.
-/

theorem map_fix {f : Char → Char} {l : List Char} (h : ∀ a ∈ l, f a = a) :
    l.map f = l := by
  rw [List.map_congr_left h]
  simp

theorem dropWhile_fix {p : Char → Bool} {l : List Char}
    (h : ∀ c, l.head? = some c → p c = false) : l.dropWhile p = l := by
  cases l with
  | nil => rfl
  | cons c rest => simp [List.dropWhile_cons, h c rfl]

theorem trimChars_fix {l : List Char}
    (hh : ∀ c, l.head? = some c → isJsWs c = false)
    (hl : ∀ c, l.getLast? = some c → isJsWs c = false) :
    trimChars l = l := by
  unfold trimChars
  rw [dropWhile_fix hh]
  rw [dropWhile_fix (fun c hc => hl c (by rwa [List.head?_reverse] at hc))]
  exact List.reverse_reverse l

theorem head_dropWhile_false {p : Char → Bool} {l : List Char} {c : Char}
    (h : (l.dropWhile p).head? = some c) : p c = false := by
  have hd := List.head?_dropWhile_not p l
  rw [h] at hd
  simpa using hd

theorem trimChars_head_not_ws : ∀ {l : List Char} {c : Char},
    (trimChars l).head? = some c → isJsWs c = false := by
  intro l c h
  unfold trimChars at h
  obtain ⟨pre, hpre⟩ :=
    @List.dropWhile_suffix Char ((l.dropWhile isJsWs).reverse) isJsWs
  set m := l.dropWhile isJsWs with hm
  set y := m.reverse.dropWhile isJsWs with hy
  -- `y.reverse` is a prefix of `m`; its head is `m`'s head, which is not ws
  have hmrev : y.reverse ++ pre.reverse = m := by
    have := congrArg List.reverse hpre
    simpa using this
  cases hyr : y.reverse with
  | nil => rw [hyr] at h; simp at h
  | cons c0 t =>
    rw [hyr] at h
    simp only [List.head?_cons, Option.some.injEq] at h
    subst h
    have hmhead : m.head? = some c0 := by
      rw [← hmrev, hyr]
      rfl
    exact head_dropWhile_false hmhead

theorem trimChars_last_not_ws : ∀ {l : List Char} {c : Char},
    (trimChars l).getLast? = some c → isJsWs c = false := by
  intro l c h
  unfold trimChars at h
  rw [List.getLast?_reverse] at h
  exact head_dropWhile_false h

theorem trimChars_trimChars (l : List Char) :
    trimChars (trimChars l) = trimChars l :=
  trimChars_fix (fun _ h => trimChars_head_not_ws h)
    (fun _ h => trimChars_last_not_ws h)

theorem trimChars_eq_nil_iff {l : List Char} :
    trimChars l = [] ↔ ∀ c ∈ l, isJsWs c = true := by
  unfold trimChars
  constructor
  · intro h c hc
    have h1 : (l.dropWhile isJsWs).reverse.dropWhile isJsWs = [] := by
      have := congrArg List.reverse h
      simpa using this
    have h2 : ∀ c ∈ (l.dropWhile isJsWs).reverse, isJsWs c = true :=
      List.dropWhile_eq_nil_iff.mp h1
    have h3 : ∀ c ∈ l.dropWhile isJsWs, isJsWs c = true := by
      intro x hx
      exact h2 x (by simpa using hx)
    have h4 : ∀ c ∈ l.takeWhile isJsWs, isJsWs c = true :=
      fun x hx => List.mem_takeWhile_imp hx
    rw [← @List.takeWhile_append_dropWhile Char isJsWs l] at hc
    rcases List.mem_append.mp hc with hc | hc
    · exact h4 c hc
    · exact h3 c hc
  · intro h
    have h1 : l.dropWhile isJsWs = [] := List.dropWhile_eq_nil_iff.mpr h
    rw [h1]
    rfl

theorem collapseWsAux_fix : ∀ (l : List Char) (b : Bool),
    (∀ c ∈ l, isJsWs c = true → c = ' ') →
    l.Chain' (fun x y => ¬(x = ' ' ∧ y = ' ')) →
    (b = true → ∀ c, l.head? = some c → isJsWs c = false) →
    collapseWsAux b l = l := by
  intro l
  induction l with
  | nil => intro b _ _ _; cases b <;> rfl
  | cons c rest ih =>
    intro b hws hchain hhead
    obtain ⟨hrel, htail⟩ := List.chain'_cons'.mp hchain
    by_cases hc : isJsWs c = true
    · have hcsp : c = ' ' := hws c (by simp) hc
      cases b with
      | true =>
        have := hhead rfl c rfl
        rw [this] at hc
        exact absurd hc (by simp)
      | false =>
        have hresthead : ∀ x, rest.head? = some x → isJsWs x = false := by
          intro x hx
          by_cases hxw : isJsWs x = true
          · have hxs : x = ' ' :=
              hws x (by simp [List.mem_of_mem_head? (by rw [hx]; rfl)]) hxw
            have := hrel x (by rw [hx]; rfl)
            rw [hcsp, hxs] at this
            exact absurd ⟨rfl, rfl⟩ this
          · simpa using hxw
        have hrec := ih true (fun x hx hw => hws x (by simp [hx]) hw) htail
          (fun _ => hresthead)
        simp only [collapseWsAux, hc, if_true]
        rw [if_neg (by simp)]
        rw [hrec, hcsp]
    · simp only [collapseWsAux, hc]
      rw [if_neg (by simpa using hc)]
      rw [ih false (fun x hx hw => hws x (by simp [hx]) hw) htail
        (by intro hfalse; exact absurd hfalse (by simp))]

theorem collapseWs_fix {l : List Char}
    (hws : ∀ c ∈ l, isJsWs c = true → c = ' ')
    (hchain : l.Chain' (fun x y => ¬(x = ' ' ∧ y = ' '))) :
    collapseWs l = l :=
  collapseWsAux_fix l false hws hchain (fun h => absurd h (by simp))

theorem chain'_of_noTwoSpaces : ∀ {l : List Char}, noTwoSpaces l = true →
    l.Chain' (fun x y => ¬(x = ' ' ∧ y = ' ')) := by
  intro l
  induction l with
  | nil => intro _; simp
  | cons c rest ih =>
    intro h
    cases rest with
    | nil => simp
    | cons d rest2 =>
      simp only [noTwoSpaces, Bool.and_eq_true, Bool.not_eq_true'] at h
      rw [List.chain'_cons]
      refine ⟨?_, ih h.2⟩
      rintro ⟨rfl, rfl⟩
      simp at h

theorem splitSep_no_sep {l : List Char} (h : ∀ c ∈ l, isSep c = false) :
    splitSep l = [l] := by
  induction l with
  | nil => rfl
  | cons c rest ih =>
    simp only [splitSep]
    rw [if_neg (by simp [h c (by simp)])]
    rw [ih (fun x hx => h x (by simp [hx]))]

theorem splitSep_append {A B : List Char} (h : ∀ c ∈ A, isSep c = false) :
    splitSep (A ++ ',' :: B) = A :: splitSep B := by
  induction A with
  | nil =>
    simp only [List.nil_append, splitSep]
    rw [if_pos (by simp [isSep])]
  | cons c rest ih =>
    simp only [List.cons_append, splitSep, List.append_eq]
    rw [if_neg (by simp [h c (by simp)])]
    rw [ih (fun x hx => h x (by simp [hx]))]

theorem pipeline_fix {l : List Char}
    (h1 : ∀ c ∈ l, nbspToSpace c = c)
    (h2 : ∀ c ∈ l, cjkComma c = c)
    (hws : ∀ c ∈ l, isJsWs c = true → c = ' ')
    (hchain : l.Chain' (fun x y => ¬(x = ' ' ∧ y = ' ')))
    (hh : ∀ c, l.head? = some c → isJsWs c = false)
    (hl : ∀ c, l.getLast? = some c → isJsWs c = false) :
    trimChars (collapseWs ((l.map nbspToSpace).map cjkComma)) = l := by
  rw [map_fix h1, map_fix h2, collapseWs_fix hws hchain, trimChars_fix hh hl]

theorem allowedNameChar_ws {c : Char} (ha : allowedNameChar c = true)
    (hw : isJsWs c = true) : c = ' ' := by
  simp only [isJsWs, Bool.or_eq_true, decide_eq_true_eq, or_assoc] at hw
  rcases hw with rfl | rfl | rfl | rfl | rfl | rfl | rfl | rfl | rfl | rfl |
    rfl | rfl | rfl | rfl | rfl | rfl | rfl | rfl | rfl | rfl | rfl | rfl |
    rfl | rfl | rfl
  all_goals first
    | rfl
    | exact absurd ha (by decide)

theorem goodFieldChar_spec {c : Char} (h : goodFieldChar c = true) :
    nbspToSpace c = c ∧ cjkComma c = c ∧ isSep c = false ∧
    (isJsWs c = true → c = ' ') := by
  simp only [goodFieldChar, Bool.and_eq_true, Bool.or_eq_true,
    Bool.not_eq_true', decide_eq_true_eq] at h
  obtain ⟨⟨⟨hsep, hc1⟩, hc2⟩, hws⟩ := h
  have hwsp : isJsWs c = true → c = ' ' := by
    intro hw
    rcases hws with hws | hws
    · rw [hw] at hws
      exact absurd hws (by simp)
    · exact hws
  refine ⟨?_, ?_, hsep, hwsp⟩
  · unfold nbspToSpace
    rw [if_neg ?hnb]
    case hnb =>
      intro hcn
      have : c = ' ' := hwsp (by rw [hcn]; decide)
      rw [this] at hcn
      exact absurd hcn (by decide)
  · unfold cjkComma
    rw [if_neg (by simp [hc1, hc2])]

/-! ## Last-name stripping (C10) -/

/-- **C10** (amended): for a well-formed last-name field (no separators, no
CJK commas, whitespace only as single interior plain spaces, trimmed,
nonempty), `parseEntryLine` silently strips the disallowed characters: the
line is accepted with the stripped-and-trimmed name exactly when at least
one allowed **non-space** character remains after stripping, and rejected
with `invalid_lastname` exactly when the stripped field contains only
spaces (the final trim then empties it).  A field whose only allowed
character is a space is therefore rejected, not accepted. -/
theorem lastname_strip_on_clean_field (nfkc : String → String)
    (fb : String → Option JsDate) (name : String)
    (hgood : ∀ c ∈ name.data, goodFieldChar c = true)
    (htrim : trimChars name.data = name.data)
    (hnodbl : noTwoSpaces name.data = true)
    (hne : ¬ name.data = [])
    (hn : nfkc (String.mk (name.data ++ ',' :: "02/23/1961,30331,9631".data)) =
      String.mk (name.data ++ ',' :: "02/23/1961,30331,9631".data)) :
    parseEntryLine nfkc fb
      (String.mk (name.data ++ ',' :: "02/23/1961,30331,9631".data)) =
    (if (name.data.filter allowedNameChar).any (fun c => !(c = ' ')) then
      ParseResult.ok (String.mk (trimChars (name.data.filter allowedNameChar)))
        "02/23/1961" "30331" "9631"
        (String.mk (name.data ++ ',' :: "02/23/1961,30331,9631".data))
    else
      ParseResult.err "invalid_lastname"
        (String.mk (name.data ++ ',' :: "02/23/1961,30331,9631".data))
        (some name) none) := by
  have hrawne : ¬ String.mk (name.data ++ ',' :: "02/23/1961,30331,9631".data)
      = "" := by
    intro hmk
    have hd : name.data ++ ',' :: "02/23/1961,30331,9631".data = [] :=
      congrArg String.data hmk
    have := (List.append_eq_nil.mp hd).2
    exact List.noConfusion this
  have htail1 : ∀ c ∈ (',' :: "02/23/1961,30331,9631".data),
      nbspToSpace c = c := by decide
  have htail2 : ∀ c ∈ (',' :: "02/23/1961,30331,9631".data),
      cjkComma c = c := by decide
  have htail3 : ∀ c ∈ (',' :: "02/23/1961,30331,9631".data),
      isJsWs c = false := by decide
  -- the whole line is untouched by the normalization pipeline
  have hfix : trimChars (collapseWs
      ((((name.data ++ ',' :: "02/23/1961,30331,9631".data).map
        nbspToSpace).map cjkComma))) =
      name.data ++ ',' :: "02/23/1961,30331,9631".data := by
    apply pipeline_fix
    · intro c hc
      rcases List.mem_append.mp hc with hc | hc
      · exact (goodFieldChar_spec (hgood c hc)).1
      · exact htail1 c hc
    · intro c hc
      rcases List.mem_append.mp hc with hc | hc
      · exact (goodFieldChar_spec (hgood c hc)).2.1
      · exact htail2 c hc
    · intro c hc hw
      rcases List.mem_append.mp hc with hc | hc
      · exact (goodFieldChar_spec (hgood c hc)).2.2.2 hw
      · rw [htail3 c hc] at hw
        exact absurd hw (by simp)
    · rw [List.chain'_append]
      refine ⟨chain'_of_noTwoSpaces hnodbl,
        chain'_of_noTwoSpaces (by decide), ?_⟩
      intro x _ y hy
      simp only [List.head?_cons, Option.mem_def, Option.some.injEq] at hy
      subst hy
      rintro ⟨_, hcomma⟩
      exact absurd hcomma (by decide)
    · intro c hc
      cases hnd : name.data with
      | nil => exact absurd hnd hne
      | cons c0 t =>
        rw [hnd] at hc
        simp only [List.cons_append, List.head?_cons, Option.some.injEq] at hc
        subst hc
        apply @trimChars_head_not_ws name.data
        rw [htrim, hnd]
        rfl
    · intro c hc
      rw [List.getLast?_append_of_ne_nil _ (by simp)] at hc
      have : c = '1' := by
        rw [show (',' :: "02/23/1961,30331,9631".data).getLast? = some '1'
          from rfl] at hc
        exact (Option.some.inj hc).symm
      rw [this]
      rfl
  -- the field separators split the line into the four fields
  have hsep : ∀ c ∈ name.data, isSep c = false :=
    fun c hc => (goodFieldChar_spec (hgood c hc)).2.2.1
  have hsplit : splitSep (name.data ++ ',' :: "02/23/1961,30331,9631".data) =
      [name.data, "02/23/1961".data, "30331".data, "9631".data] := by
    rw [splitSep_append hsep]
    rfl
  simp only [parseEntryLine, if_neg hrawne, hn, hfix, hsplit, List.map_cons,
    List.map_nil, htrim]
  split
  case isFalse h4 => exact absurd rfl h4
  case isTrue h4 =>
    simp only [List.getElem_cons_zero, List.getElem_cons_succ]
    by_cases hany :
        (name.data.filter allowedNameChar).any (fun c => !(c = ' ')) = true
    · -- at least one allowed non-space character: accepted
      have hlast_ne : ¬ trimChars (name.data.filter allowedNameChar) = [] := by
        intro hnil
        obtain ⟨c, hcmem, hcne⟩ := List.any_eq_true.mp hany
        have hcsp : c = ' ' :=
          allowedNameChar_ws (List.of_mem_filter hcmem)
            (trimChars_eq_nil_iff.mp hnil c hcmem)
        rw [hcsp] at hcne
        simp at hcne
      rw [if_neg hlast_ne, if_pos hany]
      rfl
    · -- only spaces survive the strip: rejected with `invalid_lastname`
      have hallsp : ∀ c ∈ name.data.filter allowedNameChar, c = ' ' := by
        intro c hc
        by_contra hcne
        have : (name.data.filter allowedNameChar).any (fun c => !(c = ' '))
            = true :=
          List.any_eq_true.mpr ⟨c, hc, by simpa using hcne⟩
        exact hany this
      have hlast_nil : trimChars (name.data.filter allowedNameChar) = [] := by
        rw [trimChars_eq_nil_iff]
        intro c hc
        rw [hallsp c hc]
        rfl
      rw [if_pos hlast_nil, if_neg hany]

theorem lastname_strip_on_clean_field_witness :
    (∀ c ∈ ("O#Brien" : String).data, goodFieldChar c = true) ∧
    trimChars ("O#Brien" : String).data = ("O#Brien" : String).data ∧
    noTwoSpaces ("O#Brien" : String).data = true ∧
    ¬ ("O#Brien" : String).data = [] ∧
    parseEntryLine nfkcId fbNone
      (String.mk (("O#Brien" : String).data ++ ','
        :: "02/23/1961,30331,9631".data)) =
    (if (("O#Brien" : String).data.filter allowedNameChar).any
        (fun c => !(c = ' ')) then
      ParseResult.ok
        (String.mk (trimChars (("O#Brien" : String).data.filter
          allowedNameChar)))
        "02/23/1961" "30331" "9631"
        (String.mk (("O#Brien" : String).data ++ ','
          :: "02/23/1961,30331,9631".data))
    else
      ParseResult.err "invalid_lastname"
        (String.mk (("O#Brien" : String).data ++ ','
          :: "02/23/1961,30331,9631".data))
        (some "O#Brien") none) :=
  ⟨by decide, by decide, by decide, by decide,
   lastname_strip_on_clean_field nfkcId fbNone "O#Brien" (by decide)
     (by decide) (by decide) (by decide) rfl⟩

/-! ## Idempotence of record parsing on bounded canonical output (C8) -/

theorem mem_of_getLast?_eq {l : List Char} {c : Char}
    (h : l.getLast? = some c) : c ∈ l := by
  obtain ⟨hne, rfl⟩ := List.mem_getLast?_eq_getLast (by rw [h]; rfl)
  exact List.getLast_mem hne

theorem mem_trimChars {l : List Char} {c : Char} (h : c ∈ trimChars l) :
    c ∈ l := by
  unfold trimChars at h
  rw [List.mem_reverse] at h
  have h1 := (List.dropWhile_suffix isJsWs).subset h
  rw [List.mem_reverse] at h1
  exact (List.dropWhile_suffix isJsWs).subset h1

theorem trimChars_fix_of_no_ws {l : List Char}
    (h : ∀ c ∈ l, isJsWs c = false) : trimChars l = l :=
  trimChars_fix
    (fun c hc => h c (List.mem_of_mem_head? (by rw [hc]; rfl)))
    (fun c hc => h c (mem_of_getLast?_eq hc))

theorem chain'_no_space {l : List Char} (h : ∀ c ∈ l, ¬ c = ' ') :
    l.Chain' (fun x y => ¬(x = ' ' ∧ y = ' ')) := by
  induction l with
  | nil => simp
  | cons c rest ih =>
    rw [List.chain'_cons']
    refine ⟨fun y _ hc => h c (by simp) hc.1,
      ih (fun x hx => h x (by simp [hx]))⟩

theorem allowedNameChar_clean {c : Char} (h : allowedNameChar c = true) :
    goodFieldChar c = true := by
  by_cases hw : isJsWs c = true
  · have := allowedNameChar_ws h hw
    subst this
    decide
  · simp only [goodFieldChar, Bool.and_eq_true, Bool.or_eq_true,
      Bool.not_eq_true', decide_eq_true_eq]
    refine ⟨⟨⟨?_, ?_⟩, ?_⟩, Or.inl (by simpa using hw)⟩
    · by_cases h1 : c = '|'
      · rw [h1] at h
        exact absurd h (by decide)
      · by_cases h2 : c = ','
        · rw [h2] at h
          exact absurd h (by decide)
        · simp [isSep, h1, h2]
    · rw [decide_eq_false_iff_not]
      intro h1
      rw [h1] at h
      exact absurd h (by decide)
    · rw [decide_eq_false_iff_not]
      intro h1
      rw [h1] at h
      exact absurd h (by decide)

theorem digit_clean {c : Char} (h : isDig c = true) :
    goodFieldChar c = true ∧ isJsWs c = false ∧ isSep c = false ∧
    nbspToSpace c = c ∧ cjkComma c = c ∧ ¬ c = ' ' := by
  rcases isDig_cases h with rfl | rfl | rfl | rfl | rfl | rfl | rfl | rfl |
    rfl | rfl <;>
    exact ⟨by decide, by decide, by decide, by decide, by decide, by decide⟩

theorem dobBounded_inv {dob : String} (h : dobBounded dob = true) :
    ∃ m1 m2 d1 d2 y1 y2 y3 y4,
      dob.data = [m1, m2, '/', d1, d2, '/', y1, y2, y3, y4] ∧
      (∀ x ∈ [m1, m2, d1, d2, y1, y2, y3, y4], isDig x = true) ∧
      1 ≤ digitsToNat [m1, m2] ∧ digitsToNat [m1, m2] ≤ 12 ∧
      1 ≤ digitsToNat [d1, d2] ∧ digitsToNat [d1, d2] ≤ 31 ∧
      1900 ≤ digitsToNat [y1, y2, y3, y4] ∧
      digitsToNat [y1, y2, y3, y4] ≤ 2100 := by
  unfold dobBounded at h
  split at h
  · rename_i m1 m2 d1 d2 y1 y2 y3 y4 heq
    simp only [List.all_eq_true, Bool.and_eq_true, decide_eq_true_eq] at h
    obtain ⟨⟨⟨⟨⟨⟨hdig, h1⟩, h2⟩, h3⟩, h4⟩, h5⟩, h6⟩ := h
    exact ⟨m1, m2, d1, d2, y1, y2, y3, y4, heq, hdig, h1, h2, h3, h4, h5, h6⟩
  · exact Bool.noConfusion h

theorem zipOk_inv {l : List Char} (h : zipOk l = true) :
    (∀ c ∈ l, isDig c = true ∨ c = '-') ∧ l ≠ [] ∧
    (∀ c, l.head? = some c → isDig c = true) ∧
    (∀ c, l.getLast? = some c → isDig c = true) := by
  unfold zipOk at h
  split at h
  · rename_i _x a b c d e
    simp only [List.all_eq_true] at h
    refine ⟨fun x hx => Or.inl (h x hx), by simp, ?_, ?_⟩
    · intro x hx
      simp only [List.head?_cons, Option.some.injEq] at hx
      rw [← hx]
      exact h a (by simp)
    · intro x hx
      have hxe : x = e := by
        rw [show ([a, b, c, d, e] : List Char).getLast? = some e from rfl]
          at hx
        exact (Option.some.inj hx).symm
      rw [hxe]
      exact h e (by simp)
  · rename_i _x a b c d e f g i j
    simp only [List.all_eq_true, Bool.and_eq_true] at h
    obtain ⟨h1, h2⟩ := h
    refine ⟨?_, by simp, ?_, ?_⟩
    · intro x hx
      simp only [List.mem_cons, List.not_mem_nil, or_false] at hx
      rcases hx with rfl | rfl | rfl | rfl | rfl | rfl | rfl | rfl | rfl | rfl
      · exact Or.inl (h1 x (by simp))
      · exact Or.inl (h1 x (by simp))
      · exact Or.inl (h1 x (by simp))
      · exact Or.inl (h1 x (by simp))
      · exact Or.inl (h1 x (by simp))
      · exact Or.inr rfl
      · exact Or.inl (h2 x (by simp))
      · exact Or.inl (h2 x (by simp))
      · exact Or.inl (h2 x (by simp))
      · exact Or.inl (h2 x (by simp))
    · intro x hx
      simp only [List.head?_cons, Option.some.injEq] at hx
      rw [← hx]
      exact h1 a (by simp)
    · intro x hx
      have hxj : x = j := by
        rw [show ([a, b, c, d, e, '-', f, g, i, j] : List Char).getLast? =
          some j from rfl] at hx
        exact (Option.some.inj hx).symm
      rw [hxj]
      exact h2 j (by simp)
  · exact Bool.noConfusion h

theorem last4Ok_inv {l : List Char} (h : last4Ok l = true) :
    ∃ a b c d, l = [a, b, c, d] ∧ ∀ x ∈ l, isDig x = true := by
  unfold last4Ok at h
  split at h
  · rename_i _x a b c d
    simp only [List.all_eq_true] at h
    exact ⟨a, b, c, d, rfl, h⟩
  · exact Bool.noConfusion h

theorem parseEntryLine_ok_inv {nfkc : String → String}
    {fb : String → Option JsDate} {raw ln dob zip l4 s0 : String}
    (hp : parseEntryLine nfkc fb raw = .ok ln dob zip l4 s0) :
    (∀ c ∈ ln.data, allowedNameChar c = true) ∧
    trimChars ln.data = ln.data ∧
    ¬ ln.data = [] ∧ zipOk zip.data = true ∧ last4Ok l4.data = true := by
  simp only [parseEntryLine] at hp
  split at hp
  · exact ParseResult.noConfusion hp
  · split at hp
    · split at hp
      · exact ParseResult.noConfusion hp
      · rename_i hlnne
        revert hp
        split
        · intro hp
          exact ParseResult.noConfusion hp
        · intro hp
          split at hp
          · rename_i hzip
            split at hp
            · rename_i hl4
              injection hp with h1 h2 h3 h4 h5
              have hdata := (congrArg String.data h1).symm
              refine ⟨?_, ?_, ?_, ?_, ?_⟩
              · intro c hc
                rw [hdata] at hc
                exact List.of_mem_filter (mem_trimChars hc)
              · rw [hdata]
                exact trimChars_trimChars _
              · rw [hdata]
                exact hlnne
              · rw [← h3]
                exact hzip
              · rw [← h4]
                exact hl4
            · exact ParseResult.noConfusion hp
          · exact ParseResult.noConfusion hp
    · exact ParseResult.noConfusion hp

theorem matchYMD_none_of_slash {m1 m2 d1 d2 y1 y2 y3 y4 : Char}
    (hd2 : isDig d2 = true) :
    matchYMD [m1, m2, '/', d1, d2, '/', y1, y2, y3, y4] = none := by
  rcases isDig_cases hd2 with rfl | rfl | rfl | rfl | rfl | rfl | rfl | rfl |
    rfl | rfl <;> rfl

theorem matchMDY_canonical {m1 m2 d1 d2 y1 y2 y3 y4 : Char}
    (h : ∀ x ∈ [m1, m2, d1, d2, y1, y2, y3, y4], isDig x = true) :
    matchMDY [m1, m2, '/', d1, d2, '/', y1, y2, y3, y4] =
      some ([m1, m2], [d1, d2], [y1, y2, y3, y4]) := by
  have h1 : isDig m1 = true := h _ (by simp)
  have h2 : isDig m2 = true := h _ (by simp)
  have h3 : isDig d1 = true := h _ (by simp)
  have h4 : isDig d2 = true := h _ (by simp)
  have h5 : isDig y1 = true := h _ (by simp)
  have h6 : isDig y2 = true := h _ (by simp)
  have h7 : isDig y3 = true := h _ (by simp)
  have h8 : isDig y4 = true := h _ (by simp)
  have hs : isDig '/' = false := rfl
  simp only [matchMDY, List.takeWhile_cons, List.dropWhile_cons, h1, h2, h3,
    h4, h5, h6, h7, h8, hs, if_true, if_false, Bool.false_eq_true,
    List.takeWhile_nil, List.dropWhile_nil]
  rfl

theorem normalizeDob_on_bounded {fb : String → Option JsDate} {dob : String}
    (hdob : dobBounded dob = true) :
    normalizeDobToMMDDYYYY fb (String.mk dob.data) = some dob := by
  obtain ⟨m1, m2, d1, d2, y1, y2, y3, y4, hdshape, hddig, hb1, hb2, hb3, hb4,
    hb5, hb6⟩ := dobBounded_inv hdob
  have hnws : ∀ c ∈ dob.data, isJsWs c = false := by
    intro c hc
    rw [hdshape] at hc
    simp only [List.mem_cons, List.not_mem_nil, or_false] at hc
    rcases hc with rfl | rfl | rfl | rfl | rfl | rfl | rfl | rfl | rfl | rfl
    · exact (digit_clean (hddig _ (by simp))).2.1
    · exact (digit_clean (hddig _ (by simp))).2.1
    · rfl
    · exact (digit_clean (hddig _ (by simp))).2.1
    · exact (digit_clean (hddig _ (by simp))).2.1
    · rfl
    · exact (digit_clean (hddig _ (by simp))).2.1
    · exact (digit_clean (hddig _ (by simp))).2.1
    · exact (digit_clean (hddig _ (by simp))).2.1
    · exact (digit_clean (hddig _ (by simp))).2.1
  have hne : ¬ String.mk dob.data = "" := by
    intro h
    have hd : dob.data = [] := congrArg String.data h
    rw [hdshape] at hd
    exact List.noConfusion hd
  simp only [normalizeDobToMMDDYYYY, if_neg hne]
  rw [show (String.mk dob.data).data = dob.data from rfl]
  rw [trimChars_fix_of_no_ws hnws, hdshape]
  rw [matchYMD_none_of_slash (hddig d2 (by simp))]
  rw [matchMDY_canonical hddig]
  have hmm := pad2_digits_pair (hddig m1 (by simp)) (hddig m2 (by simp))
  have hdd := pad2_digits_pair (hddig d1 (by simp)) (hddig d2 (by simp))
  simp only [hmm, hdd]
  rw [if_neg (show ¬ ([y1, y2, y3, y4] : List Char).length = 2 by simp)]
  rw [if_neg ?hb]
  case hb =>
    simp only [Bool.or_eq_true, decide_eq_true_eq, not_or, Nat.not_lt]
    refine ⟨⟨⟨⟨⟨?_, ?_⟩, ?_⟩, ?_⟩, ?_⟩, ?_⟩ <;> omega
  rw [show ([m1, m2] ++ '/' :: [d1, d2] ++ '/' :: [y1, y2, y3, y4] :
    List Char) = [m1, m2, '/', d1, d2, '/', y1, y2, y3, y4] from rfl]
  rw [← hdshape]

/-- **C8** (amended): `parseRecord` is idempotent on a valid record whose
canonical dob is a bounds-valid `MM/DD/YYYY` (month 1-12, day 1-31, year
1900-2100) and whose canonical last name has no two adjacent spaces:
re-parsing the four canonical fields re-joined as a comma-separated line
yields the same four fields.  (The counterexample shows both side
conditions necessary: a `YYYY-MM-DD` date with year below 1900 breaks the
dob round trip, and character stripping can leave a double space the
re-parse collapses.) -/
theorem parseEntryLine_idempotent (nfkc nfkc2 : String → String)
    (fb fb2 : String → Option JsDate) (raw ln dob zip l4 s0 : String)
    (hp : parseEntryLine nfkc fb raw = .ok ln dob zip l4 s0)
    (hdob : dobBounded dob = true)
    (hnodbl : noTwoSpaces ln.data = true)
    (hn : nfkc2 (String.mk (ln.data ++ ',' :: (dob.data ++ ',' ::
        (zip.data ++ ',' :: l4.data)))) =
      String.mk (ln.data ++ ',' :: (dob.data ++ ',' ::
        (zip.data ++ ',' :: l4.data)))) :
    parseEntryLine nfkc2 fb2
      (String.mk (ln.data ++ ',' :: (dob.data ++ ',' ::
        (zip.data ++ ',' :: l4.data)))) =
    .ok ln dob zip l4
      (String.mk (ln.data ++ ',' :: (dob.data ++ ',' ::
        (zip.data ++ ',' :: l4.data)))) := by
  obtain ⟨hlnchars, hlntrim, hlnne, hzip, hl4⟩ := parseEntryLine_ok_inv hp
  obtain ⟨m1, m2, d1, d2, y1, y2, y3, y4, hdshape, hddig, hb1, hb2, hb3, hb4,
    hb5, hb6⟩ := dobBounded_inv hdob
  obtain ⟨q1, q2, q3, q4, hlshape, hldig⟩ := last4Ok_inv hl4
  obtain ⟨hzchars, hzne, hzhead, hzlast⟩ := zipOk_inv hzip
  have hdigC : ∀ c, isDig c = true → nbspToSpace c = c ∧ cjkComma c = c ∧
      isJsWs c = false ∧ isSep c = false ∧ ¬ c = ' ' := by
    intro c h
    have hd := digit_clean h
    exact ⟨hd.2.2.2.1, hd.2.2.2.2.1, hd.2.1, hd.2.2.1, hd.2.2.2.2.2⟩
  have hdobC : ∀ c ∈ dob.data, nbspToSpace c = c ∧ cjkComma c = c ∧
      isJsWs c = false ∧ isSep c = false ∧ ¬ c = ' ' := by
    intro c hc
    rw [hdshape] at hc
    simp only [List.mem_cons, List.not_mem_nil, or_false] at hc
    rcases hc with rfl | rfl | rfl | rfl | rfl | rfl | rfl | rfl | rfl | rfl
    · exact hdigC _ (hddig _ (by simp))
    · exact hdigC _ (hddig _ (by simp))
    · exact ⟨rfl, rfl, rfl, rfl, by decide⟩
    · exact hdigC _ (hddig _ (by simp))
    · exact hdigC _ (hddig _ (by simp))
    · exact ⟨rfl, rfl, rfl, rfl, by decide⟩
    · exact hdigC _ (hddig _ (by simp))
    · exact hdigC _ (hddig _ (by simp))
    · exact hdigC _ (hddig _ (by simp))
    · exact hdigC _ (hddig _ (by simp))
  have hzipC : ∀ c ∈ zip.data, nbspToSpace c = c ∧ cjkComma c = c ∧
      isJsWs c = false ∧ isSep c = false ∧ ¬ c = ' ' := by
    intro c hc
    rcases hzchars c hc with hd | rfl
    · exact hdigC _ hd
    · exact ⟨rfl, rfl, rfl, rfl, by decide⟩
  have hl4C : ∀ c ∈ l4.data, nbspToSpace c = c ∧ cjkComma c = c ∧
      isJsWs c = false ∧ isSep c = false ∧ ¬ c = ' ' := by
    intro c hc
    exact hdigC _ (hldig c hc)
  have hcommaC : nbspToSpace ',' = ',' ∧ cjkComma ',' = ',' ∧
      isJsWs ',' = false ∧ ¬ (',' : Char) = ' ' := by decide
  have hlnC := fun c hc => goodFieldChar_spec (allowedNameChar_clean
    (hlnchars c hc))
  have htailC : ∀ c ∈ (',' :: (dob.data ++ ',' ::
      (zip.data ++ ',' :: l4.data))), nbspToSpace c = c ∧ cjkComma c = c ∧
      isJsWs c = false ∧ ¬ c = ' ' := by
    intro c hc
    simp only [List.mem_cons, List.mem_append] at hc
    rcases hc with rfl | hc | rfl | hc | rfl | hc
    · exact hcommaC
    · exact ⟨(hdobC c hc).1, (hdobC c hc).2.1, (hdobC c hc).2.2.1,
        (hdobC c hc).2.2.2.2⟩
    · exact hcommaC
    · exact ⟨(hzipC c hc).1, (hzipC c hc).2.1, (hzipC c hc).2.2.1,
        (hzipC c hc).2.2.2.2⟩
    · exact hcommaC
    · exact ⟨(hl4C c hc).1, (hl4C c hc).2.1, (hl4C c hc).2.2.1,
        (hl4C c hc).2.2.2.2⟩
  have hrawne : ¬ String.mk (ln.data ++ ',' :: (dob.data ++ ',' ::
      (zip.data ++ ',' :: l4.data))) = "" := by
    intro hmk
    have hd := congrArg String.data hmk
    have := (List.append_eq_nil.mp hd).2
    exact List.noConfusion this
  have hfix : trimChars (collapseWs
      ((((ln.data ++ ',' :: (dob.data ++ ',' :: (zip.data ++ ',' ::
        l4.data))).map nbspToSpace).map cjkComma))) =
      ln.data ++ ',' :: (dob.data ++ ',' :: (zip.data ++ ',' :: l4.data)) := by
    apply pipeline_fix
    · intro c hc
      rcases List.mem_append.mp hc with hc | hc
      · exact (hlnC c hc).1
      · exact (htailC c hc).1
    · intro c hc
      rcases List.mem_append.mp hc with hc | hc
      · exact (hlnC c hc).2.1
      · exact (htailC c hc).2.1
    · intro c hc hw
      rcases List.mem_append.mp hc with hc | hc
      · exact (hlnC c hc).2.2.2 hw
      · rw [(htailC c hc).2.2.1] at hw
        exact absurd hw (by simp)
    · rw [List.chain'_append]
      refine ⟨chain'_of_noTwoSpaces hnodbl,
        chain'_no_space (fun c hc => (htailC c hc).2.2.2), ?_⟩
      intro x _ y hy
      simp only [List.head?_cons, Option.mem_def, Option.some.injEq] at hy
      subst hy
      rintro ⟨_, hcomma⟩
      exact absurd hcomma (by decide)
    · intro c hc
      cases hnd : ln.data with
      | nil => exact absurd hnd hlnne
      | cons c0 t =>
        rw [hnd] at hc
        simp only [List.cons_append, List.head?_cons, Option.some.injEq] at hc
        subst hc
        apply @trimChars_head_not_ws ln.data
        rw [hlntrim, hnd]
        rfl
    · intro c hc
      rw [List.getLast?_append_of_ne_nil _ (by simp)] at hc
      rw [show (',' :: (dob.data ++ ',' :: (zip.data ++ ',' :: l4.data))) =
        [','] ++ (dob.data ++ ',' :: (zip.data ++ ',' :: l4.data))
        from rfl] at hc
      rw [List.getLast?_append_of_ne_nil _ (by simp)] at hc
      rw [List.getLast?_append_of_ne_nil _ (by simp)] at hc
      rw [show (',' :: (zip.data ++ ',' :: l4.data)) =
        [','] ++ (zip.data ++ ',' :: l4.data) from rfl] at hc
      rw [List.getLast?_append_of_ne_nil _ (by simp)] at hc
      rw [List.getLast?_append_of_ne_nil _
        (by rw [hlshape]; simp)] at hc
      rw [show (',' :: l4.data) = [','] ++ l4.data from rfl] at hc
      rw [List.getLast?_append_of_ne_nil _ (by rw [hlshape]; simp)] at hc
      rw [hlshape] at hc
      have hq4 : c = q4 := by
        rw [show ([q1, q2, q3, q4] : List Char).getLast? = some q4
          from rfl] at hc
        exact (Option.some.inj hc).symm
      rw [hq4]
      exact (hdigC q4 (hldig q4 (by rw [hlshape]; simp))).2.2.1
  have hsplit : splitSep (ln.data ++ ',' :: (dob.data ++ ',' ::
      (zip.data ++ ',' :: l4.data))) =
      [ln.data, dob.data, zip.data, l4.data] := by
    rw [splitSep_append (fun c hc => (hlnC c hc).2.2.1)]
    rw [splitSep_append (fun c hc => (hdobC c hc).2.2.2.1)]
    rw [splitSep_append (fun c hc => (hzipC c hc).2.2.2.1)]
    rw [splitSep_no_sep (fun c hc => (hl4C c hc).2.2.2.1)]
  have htrimdob : trimChars dob.data = dob.data :=
    trimChars_fix_of_no_ws (fun c hc => (hdobC c hc).2.2.1)
  have htrimzip : trimChars zip.data = zip.data :=
    trimChars_fix_of_no_ws (fun c hc => (hzipC c hc).2.2.1)
  have htriml4 : trimChars l4.data = l4.data :=
    trimChars_fix_of_no_ws (fun c hc => (hl4C c hc).2.2.1)
  simp only [parseEntryLine, if_neg hrawne, hn, hfix, hsplit, List.map_cons,
    List.map_nil, hlntrim, htrimdob, htrimzip, htriml4]
  split
  case isFalse h4 => exact absurd rfl h4
  case isTrue h4 =>
    simp only [List.getElem_cons_zero, List.getElem_cons_succ]
    rw [List.filter_eq_self.mpr hlnchars, hlntrim]
    rw [if_neg hlnne]
    rw [normalizeDob_on_bounded hdob]
    simp only [hzip, hl4, eq_self_iff_true, if_true]

theorem parseEntryLine_idempotent_witness :
    parseEntryLine nfkcId fbNone "Martines,02/23/1961,30331,9631" =
      ParseResult.ok "Martines" "02/23/1961" "30331" "9631"
        "Martines,02/23/1961,30331,9631" ∧
    dobBounded "02/23/1961" = true ∧
    noTwoSpaces ("Martines" : String).data = true ∧
    parseEntryLine nfkcId fbNone
      (String.mk (("Martines" : String).data ++ ',' ::
        (("02/23/1961" : String).data ++ ',' ::
        (("30331" : String).data ++ ',' :: ("9631" : String).data)))) =
    ParseResult.ok "Martines" "02/23/1961" "30331" "9631"
      (String.mk (("Martines" : String).data ++ ',' ::
        (("02/23/1961" : String).data ++ ',' ::
        (("30331" : String).data ++ ',' :: ("9631" : String).data)))) :=
  ⟨rfl, rfl, by decide,
   parseEntryLine_idempotent nfkcId nfkcId fbNone fbNone
     "Martines,02/23/1961,30331,9631" "Martines" "02/23/1961" "30331" "9631"
     "Martines,02/23/1961,30331,9631" rfl rfl (by decide) rfl⟩

/-! ## Aggregation: one result per valid record, in index order (C3) -/

theorem runOneGo_index (R : Nat) (passes : Nat → PassOutcome) (idx : Nat) :
    ∀ fuel pass, (runOneGo R passes idx fuel pass).index = idx := by
  intro fuel
  induction fuel with
  | zero => intro pass; rfl
  | succ f ih =>
    intro pass
    simp only [runOneGo]
    cases passes (pass + 1) with
    | success st shot => rfl
    | failure e =>
      by_cases h : 1 + R < pass + 1
      · simp [h]
      · simp [h, ih]

theorem runOne_index (R : Nat) (passes : Nat → PassOutcome) (idx : Nat) :
    (runOne R passes idx).index = idx :=
  runOneGo_index R passes idx (2 + R) 0

theorem parseBulk_map_index (nfkc : String → String)
    (fb : String → Option JsDate) (text : String) :
    (parseBulk nfkc fb text).map Outcome.index =
      List.range' 1 (parseBulk nfkc fb text).length := by
  unfold parseBulk
  simp only [List.map_map, List.length_map, List.enum_length]
  have h1 : (Outcome.index ∘ fun p : Nat × List Char =>
      ({ index := p.1 + 1, input := String.mk p.2,
         result := parseEntryLine nfkc fb (String.mk p.2) } : Outcome)) =
      (fun n => n + 1) ∘ Prod.fst := rfl
  rw [h1, ← List.map_map, List.enum_map_fst, List.range'_eq_map_range]
  apply List.map_congr_left
  intro a _
  omega

/-- **C3** (amended): after aggregation the results list contains exactly
one `AttemptResult` per valid record, is sorted by `index` ascending, and
its index values are exactly the indices of the valid records **within the
full parsed-line sequence** (as a multiset); when every parsed line is
valid this sorted index list is exactly `[1, …, len(validRecords)]`, but
when some lines are invalid the valid records keep their original line
indices, so the set need not be `{1..len(validRecords)}`. -/
theorem batchResults_ordered_complete (nfkc : String → String)
    (fb : String → Option JsDate) (text : String) (R : Nat)
    (passesFor : Nat → Nat → PassOutcome) (order : List Outcome)
    (hperm : order.Perm (validOutcomes (parseBulk nfkc fb text))) :
    (batchResults R passesFor order).length =
      (validOutcomes (parseBulk nfkc fb text)).length ∧
    (batchResults R passesFor order).Sorted (fun a b => a.index ≤ b.index) ∧
    ((batchResults R passesFor order).map AttemptResult.index).Perm
      ((validOutcomes (parseBulk nfkc fb text)).map Outcome.index) ∧
    ((∀ o ∈ parseBulk nfkc fb text, o.isOk = true) →
      (batchResults R passesFor order).map AttemptResult.index =
        List.range' 1 (validOutcomes (parseBulk nfkc fb text)).length) := by
  have hlen : (batchResults R passesFor order).length =
      (validOutcomes (parseBulk nfkc fb text)).length := by
    unfold batchResults
    rw [List.length_insertionSort, List.length_map, hperm.length_eq]
  have hsorted : (batchResults R passesFor order).Sorted
      (fun a b => a.index ≤ b.index) :=
    List.sorted_insertionSort _ _
  have hpermidx : ((batchResults R passesFor order).map
      AttemptResult.index).Perm
      ((validOutcomes (parseBulk nfkc fb text)).map Outcome.index) := by
    unfold batchResults
    refine ((List.perm_insertionSort _ _).map _).trans ?_
    rw [List.map_map]
    have hcomp : (AttemptResult.index ∘
        fun e : Outcome => runOne R (passesFor e.index) e.index) =
        Outcome.index := by
      funext e
      exact runOne_index R (passesFor e.index) e.index
    rw [hcomp]
    exact hperm.map _
  refine ⟨hlen, hsorted, hpermidx, ?_⟩
  intro hall
  have hvalid : validOutcomes (parseBulk nfkc fb text) =
      parseBulk nfkc fb text :=
    List.filter_eq_self.mpr hall
  have hio : ((batchResults R passesFor order).map AttemptResult.index).Perm
      (List.range' 1
        (validOutcomes (parseBulk nfkc fb text)).length) := by
    refine hpermidx.trans ?_
    rw [hvalid, parseBulk_map_index]
  refine @List.eq_of_perm_of_sorted Nat (fun a b => a ≤ b) _ _ _ hio ?_ ?_
  · exact List.Pairwise.map _ (fun a b h => h) hsorted
  · exact (List.pairwise_lt_range' _ _).imp (fun h => Nat.le_of_lt h)

theorem batchResults_ordered_complete_witness :
    (validOutcomes (parseBulk nfkcId fbNone
      "Martines,02/23/1961,30331,9631")).Perm
      (validOutcomes (parseBulk nfkcId fbNone
        "Martines,02/23/1961,30331,9631")) ∧
    ((batchResults 0 (fun _ _ => .success "valid" "s")
      (validOutcomes (parseBulk nfkcId fbNone
        "Martines,02/23/1961,30331,9631"))).length =
      (validOutcomes (parseBulk nfkcId fbNone
        "Martines,02/23/1961,30331,9631")).length ∧
    (batchResults 0 (fun _ _ => .success "valid" "s")
      (validOutcomes (parseBulk nfkcId fbNone
        "Martines,02/23/1961,30331,9631"))).Sorted
        (fun a b => a.index ≤ b.index) ∧
    ((batchResults 0 (fun _ _ => .success "valid" "s")
      (validOutcomes (parseBulk nfkcId fbNone
        "Martines,02/23/1961,30331,9631"))).map AttemptResult.index).Perm
      ((validOutcomes (parseBulk nfkcId fbNone
        "Martines,02/23/1961,30331,9631")).map Outcome.index) ∧
    ((∀ o ∈ parseBulk nfkcId fbNone "Martines,02/23/1961,30331,9631",
        o.isOk = true) →
      (batchResults 0 (fun _ _ => .success "valid" "s")
        (validOutcomes (parseBulk nfkcId fbNone
          "Martines,02/23/1961,30331,9631"))).map AttemptResult.index =
        List.range' 1 (validOutcomes (parseBulk nfkcId fbNone
          "Martines,02/23/1961,30331,9631")).length)) :=
  ⟨List.Perm.refl _,
   batchResults_ordered_complete nfkcId fbNone
     "Martines,02/23/1961,30331,9631" 0 (fun _ _ => .success "valid" "s")
     (validOutcomes (parseBulk nfkcId fbNone
       "Martines,02/23/1961,30331,9631")) (List.Perm.refl _)⟩

/-! ## The retry loop: exhaustion behavior (C1) -/

theorem runOneGo_all_failing (R idx : Nat) (errs : Nat → String) :
    ∀ fuel pass, fuel + pass = 2 + R → 1 ≤ fuel →
      runOneGo R (fun p => .failure (errs p)) idx fuel pass =
        { index := idx, ok := false, status := none, screenshot := none,
          error := some (errs (2 + R)), passes := 2 + R, delays := 1 + R } := by
  intro fuel
  induction fuel with
  | zero => intro pass _ h1; omega
  | succ f ih =>
    intro pass hsum _
    by_cases hf : 1 + R < pass + 1
    · have hp : pass + 1 = 2 + R := by omega
      simp only [runOneGo, hp]
      rw [if_pos (show 1 + R < 2 + R by omega)]
      have hd : 2 + R - 1 = 1 + R := by omega
      rw [hd]
    · have hfpos : 1 ≤ f := by omega
      simp only [runOneGo, if_neg hf]
      exact ih (pass + 1) (by omega) hfpos

/-- **C1** (code-bug evidence): for a record whose every pass fails,
`runOne` produces exactly one terminal failed result (`ok := false`,
carrying the last pass's error message) with a retry-delay wait between
consecutive passes — but it executes exactly `2 + R` passes where
`R = RETRY_ERRORS` is the retry budget, not the `1 + maxRetries` the
specification and the code's own comment state: the exhaustion check
`pass > 1 + RETRY_ERRORS` runs only after the pass has already executed,
so the loop always performs one extra pass. -/
theorem runOne_all_failing (R idx : Nat) (errs : Nat → String) :
    runOne R (fun p => .failure (errs p)) idx =
      { index := idx, ok := false, status := none, screenshot := none,
        error := some (errs (2 + R)), passes := 2 + R, delays := 1 + R } ∧
    2 + R ≠ 1 + R :=
  ⟨runOneGo_all_failing R idx errs (2 + R) 0 (by omega) (by omega), by omega⟩

/-! ## The concurrency limiter: cap and FIFO admission (C2) -/

theorem limiterNext_active_le {limit : Nat} {s : LimState}
    (h : s.active ≤ limit) : (limiterNext limit s).active ≤ limit := by
  unfold limiterNext
  split
  next => exact h
  next hlt =>
    split
    next => exact h
    next => show s.active + 1 ≤ limit; omega

theorem limiterStep_active_le {limit : Nat} {s : LimState} (e : LimEvent)
    (h : s.active ≤ limit) : (limiterStep limit s e).active ≤ limit := by
  cases e with
  | submit id =>
    exact @limiterNext_active_le limit { s with queue := s.queue ++ [id] } h
  | finish =>
    show (if s.active = 0 then s
      else limiterNext limit { s with active := s.active - 1 }).active ≤ limit
    by_cases h0 : s.active = 0
    · simp only [if_pos h0]
      exact h
    · simp only [if_neg h0]
      exact @limiterNext_active_le limit { s with active := s.active - 1 }
        (by show s.active - 1 ≤ limit; omega)

theorem limiterRun_active_le (limit : Nat) (es : List LimEvent) :
    (limiterRun limit es).active ≤ limit := by
  have key : ∀ s : LimState, s.active ≤ limit →
      (es.foldl (limiterStep limit) s).active ≤ limit := by
    induction es with
    | nil => exact fun _ hs => hs
    | cons e es ih => exact fun s hs => ih _ (limiterStep_active_le e hs)
  exact key limiterInit (Nat.zero_le _)

/-- **C2**: in every reachable limiter state the `active` counter is at
most the concurrency limit, and a finishing task immediately admits the
head of the queue (FIFO): the `finish` event on a state with a nonempty
queue re-fills the freed slot with the first queued task. -/
theorem createLimiter_cap_and_fifo (limit : Nat) (es : List LimEvent)
    (hlim : 1 ≤ limit) :
    (limiterRun limit es).active ≤ limit ∧
    (∀ t rest, (limiterRun limit es).queue = t :: rest →
      1 ≤ (limiterRun limit es).active →
      limiterStep limit (limiterRun limit es) .finish =
        { active := (limiterRun limit es).active, queue := rest,
          started := (limiterRun limit es).started ++ [t] }) := by
  refine ⟨limiterRun_active_le limit es, ?_⟩
  intro t rest hq hact
  have hle := limiterRun_active_le limit es
  set s := limiterRun limit es with hs
  have h0 : ¬ s.active = 0 := by omega
  have h1 : ¬ (limit ≤ s.active - 1) := by omega
  simp only [limiterStep, limiterNext, if_neg h0, if_neg h1, hq]
  have h2 : s.active - 1 + 1 = s.active := by omega
  rw [h2]

theorem createLimiter_cap_and_fifo_witness :
    (limiterRun 1 [.submit 0, .submit 1]).active ≤ 1 ∧
    limiterStep 1 (limiterRun 1 [.submit 0, .submit 1]) .finish =
      { active := 1, queue := [], started := [0, 1] } := by
  have h := createLimiter_cap_and_fifo 1 [.submit 0, .submit 1] (by omega)
  exact ⟨h.1, h.2 1 [] rfl (by decide)⟩

/-! ## The outcome classifier: mismatch outranks success (C4) -/

/-- **C4**: when, in a single scan, some mismatch-vocabulary pattern is
visible (as plain text or inside an alert container) and some
success-vocabulary pattern is visible as well, `classifyResult` returns
the mismatched verdict `"incorrect"`. -/
theorem classifyResult_mismatch_priority (p : PageScan)
    (hmis : incorrectMatchers.any
      (fun re => p.textVisible re || p.alertVisible re) = true)
    (hsucc : validMatchers.any p.textVisible = true) :
    classifyResult p = "incorrect" := by
  unfold classifyResult
  simp only [hmis, if_true]

theorem classifyResult_mismatch_priority_witness :
    incorrectMatchers.any (fun re =>
      (PageScan.mk (fun _ => true) (fun _ => false)).textVisible re ||
      (PageScan.mk (fun _ => true) (fun _ => false)).alertVisible re) = true ∧
    validMatchers.any (PageScan.mk (fun _ => true) (fun _ => false)).textVisible
      = true ∧
    classifyResult (PageScan.mk (fun _ => true) (fun _ => false)) = "incorrect" :=
  ⟨rfl, rfl, classifyResult_mismatch_priority _ rfl rfl⟩

/-! ## The attempt executor: error containment (C5) -/

/-- **C5** (counterexample): a failure during session acquisition — the
`getBrowser()` / `newContext` / `newPage` phase, which runs before the
`try` block — propagates as a rejection of the promise `runAutomation`
returns, contradicting the claim that the executor catches every
unexpected error of steps 1-4 and never rejects to the caller. -/
theorem runAutomation_rejects_on_launch_failure :
    runAutomation ⟨.error "launch failed", .ok (), true, true, true, true,
      true, "valid", .ok ()⟩ = .error "launch failed" := rfl

/-- **C5** (amended): once session acquisition has succeeded, the promise
always resolves with a normal result: every error thrown inside the `try`
block (navigation, field filling, submission, artifact capture) is caught
and surfaced as `status = "error"` with a diagnostic message, and when
every step succeeds the classified status is returned. -/
theorem runAutomation_caught_after_acquire (env : AutoEnv)
    (hacq : env.acquire = .ok ()) :
    ∃ r : AutoResult, runAutomation env = .ok r ∧
      (r.status = "error" ∧ r.error ≠ none ∨
       env.goto = .ok () ∧
         (env.okLast && env.okDOB && env.okZIP && env.okL4) = true ∧
         env.clicked = true ∧ env.capture = .ok () ∧
         r = ⟨env.classified, none⟩) := by
  unfold runAutomation
  rw [hacq]
  cases hg : env.goto with
  | error e => exact ⟨⟨"error", some e⟩, rfl, Or.inl ⟨rfl, by simp⟩⟩
  | ok u =>
    cases u
    by_cases hfill : (env.okLast && env.okDOB && env.okZIP && env.okL4) = true
    · by_cases hclick : env.clicked = true
      · cases hcap : env.capture with
        | error e =>
          refine ⟨⟨"error", some e⟩, ?_, Or.inl ⟨rfl, by simp⟩⟩
          simp [hfill, hclick]
        | ok u =>
          cases u
          refine ⟨⟨env.classified, none⟩, ?_, Or.inr ⟨rfl, hfill, hclick, rfl, rfl⟩⟩
          simp [hfill, hclick]
      · refine ⟨⟨"error", some "Could not find the Continue button"⟩, ?_,
          Or.inl ⟨rfl, by simp⟩⟩
        simp [hfill, Bool.not_eq_true _ ▸ hclick]
    · refine ⟨⟨"error", some (fieldsMsg env.okLast env.okDOB env.okZIP env.okL4)⟩,
        ?_, Or.inl ⟨rfl, by simp⟩⟩
      simp [hfill]

theorem runAutomation_caught_after_acquire_witness :
    (AutoEnv.mk (.ok ()) (.error "net") true true true true true "valid"
      (.ok ())).acquire = .ok () ∧
    ∃ r : AutoResult,
      runAutomation (AutoEnv.mk (.ok ()) (.error "net") true true true true
        true "valid" (.ok ())) = .ok r ∧
      (r.status = "error" ∧ r.error ≠ none ∨
       (AutoEnv.mk (.ok ()) (.error "net") true true true true true "valid"
         (.ok ())).goto = .ok () ∧ (true && true && true && true) = true ∧
         true = true ∧
         (AutoEnv.mk (.ok ()) (.error "net") true true true true true "valid"
           (.ok ())).capture = .ok () ∧ r = ⟨"valid", none⟩) :=
  ⟨rfl, runAutomation_caught_after_acquire _ rfl⟩

/-! ## Date normalization: canonical forms and the year pivot (C7) -/

/-- **C7**: the three sample inputs `"1961-02-23"`, `"02/23/1961"` and
`"2/23/61"` all canonicalize to `"02/23/1961"`, and in general a 2-digit
year `yy` resolves to `2000 + yy` when `yy ≤ 30` and to `1900 + yy`
otherwise (stated over every 2-digit year field `pad2 yy`). -/
theorem normalizeDob_canonical_and_pivot (fb : String → Option JsDate) :
    normalizeDobToMMDDYYYY fb "1961-02-23" = some "02/23/1961" ∧
    normalizeDobToMMDDYYYY fb "02/23/1961" = some "02/23/1961" ∧
    normalizeDobToMMDDYYYY fb "2/23/61" = some "02/23/1961" ∧
    ∀ yy : Nat, yy < 100 →
      normalizeDobToMMDDYYYY fb
        (String.mk ('2' :: '/' :: '2' :: '3' :: '/' :: pad2 yy)) =
      some (String.mk ('0' :: '2' :: '/' :: '2' :: '3' :: '/' ::
        natToDec (if yy ≤ 30 then 2000 + yy else 1900 + yy))) := by
  refine ⟨rfl, rfl, rfl, ?_⟩
  intro yy h
  interval_cases yy <;> rfl

theorem normalizeDob_canonical_and_pivot_witness :
    61 < 100 ∧
    normalizeDobToMMDDYYYY fbNone
      (String.mk ('2' :: '/' :: '2' :: '3' :: '/' :: pad2 61)) =
    some (String.mk ('0' :: '2' :: '/' :: '2' :: '3' :: '/' ::
      natToDec (if 61 ≤ 30 then 2000 + 61 else 1900 + 61))) :=
  ⟨by omega, (normalizeDob_canonical_and_pivot fbNone).2.2.2 61 (by omega)⟩

/-! ## Counterexamples found in the intake pipeline (C3, C6, C8, C10) -/

/-- **C6** (counterexample): the line `"Smith,9999-99-99,30331,9631"` is
accepted as a valid record although its canonical dob `"99/99/9999"` has
month and day far outside the claimed bounds — the `YYYY-MM-DD` branch of
`normalizeDobToMMDDYYYY` performs no bounds check at all. -/
theorem dob_out_of_bounds_accepted :
    parseEntryLine nfkcId fbNone "Smith,9999-99-99,30331,9631" =
      .ok "Smith" "99/99/9999" "30331" "9631" "Smith,9999-99-99,30331,9631" ∧
    dobBounded "99/99/9999" = false :=
  ⟨rfl, rfl⟩

/-- **C8** (counterexample): `parseRecord` is not idempotent.  First,
`"Smith,0999-01-05,30331,9631"` is accepted (the `YYYY-MM-DD` branch skips
the bounds check), but its canonical output re-parses as `invalid_dob`
(year 999 fails the numeric branch's bounds).  Second, stripping disallowed
characters can leave a double space inside the last name
(`"a # b"` → `"a  b"`), which the whitespace collapse of a re-parse turns
into `"a b"`. -/
theorem parseEntryLine_not_idempotent :
    (parseEntryLine nfkcId fbNone "Smith,0999-01-05,30331,9631" =
      .ok "Smith" "01/05/0999" "30331" "9631" "Smith,0999-01-05,30331,9631" ∧
     parseEntryLine nfkcId fbNone "Smith,01/05/0999,30331,9631" =
      .err "invalid_dob" "Smith,01/05/0999,30331,9631"
        (some "01/05/0999") none) ∧
    (parseEntryLine nfkcId fbNone "a # b,02/23/1961,30331,9631" =
      .ok "a  b" "02/23/1961" "30331" "9631" "a # b,02/23/1961,30331,9631" ∧
     parseEntryLine nfkcId fbNone "a  b,02/23/1961,30331,9631" =
      .ok "a b" "02/23/1961" "30331" "9631" "a b,02/23/1961,30331,9631" ∧
     "a  b" ≠ "a b") :=
  ⟨⟨rfl, rfl⟩, rfl, rfl, by decide⟩

/-- **C10** (counterexample): the last-name field `"# #"` contains an
allowed character (the space) next to disallowed ones, yet the line is
rejected with `invalid_lastname`: after stripping, only a space remains
and the final trim empties it. -/
theorem lastname_space_only_rejected :
    allowedNameChar ' ' = true ∧ ' ' ∈ "# #".data ∧
    (∃ c ∈ "# #".data, allowedNameChar c = false) ∧
    parseEntryLine nfkcId fbNone "# #,02/23/1961,30331,9631" =
      .err "invalid_lastname" "# #,02/23/1961,30331,9631" (some "# #") none :=
  ⟨rfl, by decide, ⟨'#', by decide, rfl⟩, rfl⟩

/-- **C3** (counterexample): result indices are positions within the full
parsed-line sequence, not within the valid sublist: with an invalid first
line, the single valid record keeps index 2, so the index set of the
results is `{2}`, not `{1} = {1..len(validRecords)}`. -/
theorem results_indices_not_dense :
    (validOutcomes (parseBulk nfkcId fbNone
      "x\nMartines,02/23/1961,30331,9631")).length = 1 ∧
    (batchResults 1 (fun _ _ => .success "valid" "shot")
      (validOutcomes (parseBulk nfkcId fbNone
        "x\nMartines,02/23/1961,30331,9631"))).map AttemptResult.index = [2] ∧
    [2] ≠ ([1] : List Nat) :=
  ⟨rfl, rfl, by decide⟩

end MyMutualAME
